import Mathlib

/-!
# Verification of the agentic-loop core of the code-agent IDE extension

This file gives a shallow embedding, in Lean 4, of the conversation-history
management, tool-call processing, permission protocol and agent-loop control
flow of the extension (files `ConversationManager.ts`, `OpenAIService.ts`,
`AgentLoopService.ts`), and settles the frozen claims about them.

External collaborators (the OpenAI chat-completion client, the tool runtime,
the user-confirmation dialog, the file-path regular-expression engine and the
JSON parser of the host runtime) are modelled as oracles: functions supplied
as parameters, universally quantified in the theorems.
-/

namespace CodeAgent

/-! ## String utilities

JavaScript's `String.prototype.includes`, `endsWith` and `toLowerCase` are
modelled on the character lists underlying Lean strings. -/

/-- `startsWithChars n h` is true when `n` is an initial segment of `h`. -/
def startsWithChars : List Char → List Char → Bool
  | [], _ => true
  | _ :: _, [] => false
  | a :: as, b :: bs => a == b && startsWithChars as bs

/-- `hasSubChars n h` is true when `n` occurs contiguously inside `h`
(JavaScript `h.includes(n)`). -/
def hasSubChars (n : List Char) : List Char → Bool
  | [] => startsWithChars n []
  | b :: bs => startsWithChars n (b :: bs) || hasSubChars n bs

/-- JavaScript `hay.includes(needle)`. -/
def strIncludes (hay needle : String) : Bool :=
  hasSubChars needle.data hay.data

/-- JavaScript `hay.endsWith(needle)`. -/
def strEndsWith (hay needle : String) : Bool :=
  startsWithChars needle.data.reverse hay.data.reverse

/-- ASCII lower-casing of one character (the behaviour of the host
runtime's `toLowerCase` on the ASCII inputs the control logic compares). -/
def lowerChar (c : Char) : Char :=
  if 65 ≤ c.toNat ∧ c.toNat ≤ 90 then Char.ofNat (c.toNat + 32) else c

/-- JavaScript `s.toLowerCase()`. -/
def strToLower (s : String) : String := String.mk (s.data.map lowerChar)

/-- The apostrophe character, kept out of string literals. -/
def aposChar : Char := Char.ofNat 39

/-- A one-character string holding an apostrophe. -/
def aposStr : String := String.mk [aposChar]

/-! ## Data model

`ConversationMessage` mirrors the message objects of `services/types`:
role-tagged, with optional content, optional tool-call list (assistant
messages) and optional tool-call id (tool messages).  `Option` models
JavaScript absent/undefined fields; an empty string models a falsy string. -/

inductive Role
  | system
  | user
  | assistant
  | tool
deriving DecidableEq, Repr

/-- The `function` field of a tool call: name plus raw serialized arguments. -/
structure ToolFunction where
  name : String
  arguments : String
deriving DecidableEq, Repr

/-- A tool call requested by an assistant message. -/
structure ToolCall where
  id : String
  function : ToolFunction
deriving DecidableEq, Repr

/-- A conversation-history message. -/
structure ConversationMessage where
  role : Role
  content : Option String := none
  tool_calls : Option (List ToolCall) := none
  tool_call_id : Option String := none
deriving DecidableEq, Repr

/-- Shorthand for a user-role message with plain text content. -/
def userMsg (s : String) : ConversationMessage :=
  { role := Role.user, content := some s }

/-- Shorthand for a tool-role message carrying a tool-call id. -/
def toolMsg (cid : String) (body : String) : ConversationMessage :=
  { role := Role.tool, content := some body, tool_call_id := some cid }

/-- The role of the message at index `i`, if any. -/
def roleAt (h : List ConversationMessage) (i : Nat) : Option Role :=
  (h.get? i).map (·.role)

/-! ## ConversationManager: truncation

`ConversationManager.maxHistoryLength` is fixed at 10 in the source.
`safelyTruncateConversationHistory` scans indices `i` from 0 below
`length - minimumToKeep`; whenever the message at `i + 1` has role `user`
it records `i + 1` as the latest safe removal point, and it stops as soon
as the recorded point reaches `excess = length - maxHistoryLength`.
Finally it drops that many leading messages (none when the point is 0). -/

def maxHistoryLength : Nat := 10

/-- The scan of `safelyTruncateConversationHistory`, with `rem` remaining
iterations (initially `length - minimumToKeep`), current index `i` and the
last safe removal point `pt` found so far. -/
def removalPointLoop (h : List ConversationMessage) (excess : Nat) :
    Nat → Nat → Nat → Nat
  | 0, _i, pt => pt
  | rem + 1, i, pt =>
    let pt' := if roleAt h (i + 1) == some Role.user then i + 1 else pt
    if excess ≤ pt' then pt' else removalPointLoop h excess rem (i + 1) pt'

/-- The removal point chosen for a history (0 when the history is within
bounds or no safe cut exists). -/
def removalPoint (h : List ConversationMessage) : Nat :=
  if h.length ≤ maxHistoryLength then 0
  else
    let minimumToKeep := maxHistoryLength / 2 * 2
    let excess := h.length - maxHistoryLength
    removalPointLoop h excess (h.length - minimumToKeep) 0 0

/-- `ConversationManager.safelyTruncateConversationHistory`. -/
def safelyTruncateConversationHistory (h : List ConversationMessage) :
    List ConversationMessage :=
  if h.length ≤ maxHistoryLength then h else h.drop (removalPoint h)

/-- `ConversationManager.addToConversationHistory`: push, then truncate. -/
def addToConversationHistory (h : List ConversationMessage)
    (m : ConversationMessage) : List ConversationMessage :=
  safelyTruncateConversationHistory (h ++ [m])

/-- Adding a list of messages one by one (the `forEach(add)` idiom used to
restore a saved history around summarization). -/
def addAllToConversationHistory (h : List ConversationMessage)
    (ms : List ConversationMessage) : List ConversationMessage :=
  ms.foldl addToConversationHistory h

/-! ## ConversationManager: validateConversationHistory

The source scans every message; for each tool-role message with a truthy
`tool_call_id` it looks back for an assistant message whose `tool_calls`
contain a matching id, and logs a `console.warn` when none exists.  It
mutates nothing and returns `void`.  The embedding returns the (unchanged)
history paired with the list of warned-about tool-call ids, the observable
trace of the warnings. -/

/-- Does an assistant message carry a tool call with the given id?
(The source requires `role === 'assistant'` and a truthy `tool_calls`.) -/
def msgHasMatchingCall (m : ConversationMessage) (cid : String) : Bool :=
  m.role == Role.assistant &&
    (match m.tool_calls with
     | some tcs => tcs.any (fun tc => tc.id == cid)
     | none => false)

/-- Apply a Boolean test to an optional value (false when absent). -/
def optHolds {α : Type} (f : α → Bool) : Option α → Bool
  | some x => f x
  | none => false

/-- The backward scan of `validateConversationHistory`: does any message
strictly before index `i` match the tool-call id? -/
def hasEarlierMatch (h : List ConversationMessage) (i : Nat) (cid : String) :
    Bool :=
  (List.range i).any fun j => optHolds (msgHasMatchingCall · cid) (h.get? j)

/-- The warning (if any) that the scan emits at index `i`. -/
def orphanWarningAt (h : List ConversationMessage) (i : Nat) : Option String :=
  match h.get? i with
  | some m =>
    if m.role == Role.tool then
      match m.tool_call_id with
      | some cid =>
        if cid ≠ "" && !hasEarlierMatch h i cid then some cid else none
      | none => none
    else none
  | none => none

/-- `ConversationManager.validateConversationHistory`: the history comes
back untouched (the source only logs), together with the warned ids. -/
def validateConversationHistory (h : List ConversationMessage) :
    List ConversationMessage × List String :=
  (h, (List.range h.length).filterMap (orphanWarningAt h))

/-- Declarative counterpart of the warning scan: walk the history carrying
the already-seen front segment, reporting each tool message whose id has no
match in that segment. -/
def anyMatchIn (seen : List ConversationMessage) (cid : String) : Bool :=
  seen.any (msgHasMatchingCall · cid)

/-- Orphan tool-call ids of `rest`, given the messages `seen` before it. -/
def orphanIdsFrom : List ConversationMessage → List ConversationMessage →
    List String
  | _seen, [] => []
  | seen, m :: rest =>
    if m.role == Role.tool then
      match m.tool_call_id with
      | some cid =>
        if cid ≠ "" && !anyMatchIn seen cid then
          cid :: orphanIdsFrom (seen ++ [m]) rest
        else orphanIdsFrom (seen ++ [m]) rest
      | none => orphanIdsFrom (seen ++ [m]) rest
    else orphanIdsFrom (seen ++ [m]) rest

/-- The sanitize behaviour the claim ascribes to `validateConversationHistory`,
written from the spec text (refinement target, not from the source): remove
every orphan tool message and return the count removed. -/
def sanitizeSpec (h : List ConversationMessage) :
    List ConversationMessage × Nat :=
  let kept := (List.range h.length).filterMap fun i =>
    if (orphanWarningAt h i).isSome then none else h.get? i
  (kept, h.length - kept.length)

section ValidateLemmas

/-- `any` over `range l.length` of an index lookup is `any` over `l`. -/
theorem range_get_any {α : Type} (l : List α) (f : α → Bool) :
    ((List.range l.length).any fun j => optHolds f (l.get? j)) = l.any f := by
  induction l with
  | nil => rfl
  | cons x l ih =>
    rw [List.length_cons, List.range_succ_eq_map, List.any_cons, List.any_map]
    simp only [List.get?_cons_succ, Function.comp_def]
    rw [ih, List.any_cons]
    rfl

/-- Pointwise-equal predicates give the same `any`. -/
theorem list_any_congr {α : Type} {l : List α} {f g : α → Bool}
    (hfg : ∀ a ∈ l, f a = g a) : l.any f = l.any g := by
  induction l with
  | nil => rfl
  | cons x l ih =>
    rw [List.any_cons, List.any_cons, hfg x (List.mem_cons_self x l),
      ih fun a ha => hfg a (List.mem_cons_of_mem x ha)]

/-- The backward scan at the boundary of `seen ++ rest` sees exactly `seen`. -/
theorem hasEarlierMatch_append (seen rest : List ConversationMessage)
    (cid : String) :
    hasEarlierMatch (seen ++ rest) seen.length cid = anyMatchIn seen cid := by
  unfold hasEarlierMatch anyMatchIn
  have hcong : ∀ j ∈ List.range seen.length,
      optHolds (msgHasMatchingCall · cid) ((seen ++ rest).get? j) =
      optHolds (msgHasMatchingCall · cid) (seen.get? j) := by
    intro j hj
    rw [List.mem_range] at hj
    rw [List.get?_append hj]
  rw [list_any_congr hcong]
  exact range_get_any seen (msgHasMatchingCall · cid)

/-- The indexed warning scan over `seen ++ rest`, restricted to the indices
of `rest`, computes `orphanIdsFrom seen rest`. -/
theorem filterMap_orphanWarning (rest : List ConversationMessage) :
    ∀ seen : List ConversationMessage,
      ((List.range rest.length).filterMap fun i =>
        orphanWarningAt (seen ++ rest) (seen.length + i)) =
      orphanIdsFrom seen rest := by
  induction rest with
  | nil => intro seen; rfl
  | cons m rest ih =>
    intro seen
    rw [List.length_cons, List.range_succ_eq_map, List.filterMap_cons,
      List.filterMap_map]
    have hget : (seen ++ m :: rest).get? seen.length = some m := by
      rw [List.get?_append_right (Nat.le_refl _), Nat.sub_self]
      rfl
    have htail :
        ((List.range rest.length).filterMap
          ((fun i => orphanWarningAt (seen ++ m :: rest) (seen.length + i)) ∘
            Nat.succ)) = orphanIdsFrom (seen ++ [m]) rest := by
      have hrw : ∀ i : Nat,
          ((fun i => orphanWarningAt (seen ++ m :: rest) (seen.length + i)) ∘
            Nat.succ) i =
          (fun i => orphanWarningAt ((seen ++ [m]) ++ rest)
            ((seen ++ [m]).length + i)) i := by
        intro i
        simp only [Function.comp_apply, List.append_assoc, List.singleton_append,
          List.length_append, List.length_singleton]
        have : seen.length + (i + 1) = seen.length + 1 + i := by omega
        rw [this]
      rw [List.filterMap_congr (fun i _ => hrw i)]
      exact ih (seen ++ [m])
    have hcur : orphanWarningAt (seen ++ m :: rest) (seen.length + 0) =
        (if m.role == Role.tool then
          match m.tool_call_id with
          | some cid =>
            if cid ≠ "" && !anyMatchIn seen cid then some cid else none
          | none => none
        else none) := by
      unfold orphanWarningAt
      rw [Nat.add_zero, hget]
      simp only [hasEarlierMatch_append]
    rw [hcur, htail]
    cases hr : m.role == Role.tool with
    | false => simp only [orphanIdsFrom, hr, Bool.false_eq_true, if_false]
    | true =>
      simp only [orphanIdsFrom, hr, if_true]
      cases hid : m.tool_call_id with
      | none => rfl
      | some cid =>
        cases hc : cid ≠ "" && !anyMatchIn seen cid with
        | false => simp only [hc, Bool.false_eq_true, if_false]
        | true => simp only [hc, if_true]

end ValidateLemmas

/-- **C1** (amended).  `validateConversationHistory` removes nothing and
returns no removal count: the history comes back exactly unchanged, and the
observable effect is one warning per tool-role message whose (non-empty)
`tool_call_id` matches no `tool_calls` entry of any earlier assistant
message, in history order. -/
theorem validateConversationHistory_warns_only (h : List ConversationMessage) :
    validateConversationHistory h = (h, orphanIdsFrom [] h) := by
  unfold validateConversationHistory
  have := filterMap_orphanWarning h []
  simpa using this

/-- **C1** counterexample to the claim as stated: on a history holding a
single orphan tool message, the function keeps the message (and emits a
warning), whereas the claimed sanitize behaviour would remove it and report
one removal. -/
theorem validateConversationHistory_not_sanitize :
    (validateConversationHistory [toolMsg "x" "out"]).1 = [toolMsg "x" "out"] ∧
    (sanitizeSpec [toolMsg "x" "out"]).1 = [] ∧
    (sanitizeSpec [toolMsg "x" "out"]).2 = 1 := by
  refine ⟨rfl, ?_, ?_⟩ <;> decide

/-! ## Truncation lemmas (C6) -/

section TruncationLemmas

/-- The removal point never moves past the scan bound. -/
theorem removalPointLoop_le (h : List ConversationMessage) (excess : Nat) :
    ∀ rem i pt, pt ≤ i → removalPointLoop h excess rem i pt ≤ i + rem := by
  intro rem
  induction rem with
  | zero => intro i pt hpt; simp only [removalPointLoop]; omega
  | succ rem ih =>
    intro i pt hpt
    simp only [removalPointLoop]
    by_cases hcond : (roleAt h (i + 1) == some Role.user) = true
    · simp only [hcond, if_true]
      by_cases hguard : excess ≤ i + 1
      · rw [if_pos hguard]; omega
      · rw [if_neg hguard]
        have := ih (i + 1) (i + 1) (Nat.le_refl _)
        omega
    · rw [Bool.not_eq_true] at hcond
      simp only [hcond, Bool.false_eq_true, if_false]
      by_cases hguard : excess ≤ pt
      · rw [if_pos hguard]; omega
      · rw [if_neg hguard]
        have := ih (i + 1) pt (by omega)
        omega

/-- The removal point is zero or lands immediately before a user message. -/
theorem removalPointLoop_user (h : List ConversationMessage) (excess : Nat) :
    ∀ rem i pt, (pt = 0 ∨ roleAt h pt = some Role.user) →
      (removalPointLoop h excess rem i pt = 0 ∨
        roleAt h (removalPointLoop h excess rem i pt) = some Role.user) := by
  intro rem
  induction rem with
  | zero => intro i pt hpt; simpa only [removalPointLoop] using hpt
  | succ rem ih =>
    intro i pt hpt
    simp only [removalPointLoop]
    by_cases hcond : (roleAt h (i + 1) == some Role.user) = true
    · have huser : roleAt h (i + 1) = some Role.user := by
        exact eq_of_beq hcond
      simp only [hcond, if_true]
      by_cases hguard : excess ≤ i + 1
      · rw [if_pos hguard]; exact Or.inr huser
      · rw [if_neg hguard]; exact ih (i + 1) (i + 1) (Or.inr huser)
    · rw [Bool.not_eq_true] at hcond
      simp only [hcond, Bool.false_eq_true, if_false]
      by_cases hguard : excess ≤ pt
      · rw [if_pos hguard]; exact hpt
      · rw [if_neg hguard]; exact ih (i + 1) pt hpt

/-- When no scanned index carries a user message, the point never moves. -/
theorem removalPointLoop_no_user (h : List ConversationMessage)
    (excess : Nat) :
    ∀ rem i pt, (∀ j, i < j → j ≤ i + rem → roleAt h j ≠ some Role.user) →
      removalPointLoop h excess rem i pt = pt := by
  intro rem
  induction rem with
  | zero => intro i pt _; rfl
  | succ rem ih =>
    intro i pt hno
    simp only [removalPointLoop]
    have hcond : (roleAt h (i + 1) == some Role.user) = false := by
      rw [beq_eq_false_iff_ne]
      exact hno (i + 1) (by omega) (by omega)
    simp only [hcond, Bool.false_eq_true, if_false]
    by_cases hguard : excess ≤ pt
    · rw [if_pos hguard]
    · rw [if_neg hguard]
      exact ih (i + 1) pt fun j h1 h2 => hno j (by omega) (by omega)

end TruncationLemmas

/-- An assistant message requesting the single tool call `"x"`. -/
def asstWithX : ConversationMessage :=
  { role := Role.assistant, content := some "",
    tool_calls := some [⟨"x", ⟨"update_file", "\x7b\x7d"⟩⟩] }

/-- An 11-message history in which a user message separates the assistant
tool-call message from its tool response. -/
def c6History : List ConversationMessage :=
  [asstWithX, userMsg "u1", toolMsg "x" "done output", userMsg "u2",
   { role := Role.assistant, content := some "a2" }, userMsg "u3",
   { role := Role.assistant, content := some "a3" }, userMsg "u4",
   { role := Role.assistant, content := some "a4" }, userMsg "u5",
   { role := Role.assistant, content := some "a5" }]

/-- **C6** (amended).  On a history longer than the bound, truncation only
drops a leading segment whose cut point (when non-zero) sits immediately
before a user-role message; the cut keeps at least `maxHistoryLength / 2`
(indeed `maxHistoryLength`) most recent messages; when no user-role message
occurs at any scannable index the history is unchanged; and — provided no
user-role message lies strictly between an assistant tool-call message and
its tool-role response — a kept tool response never loses its originating
assistant message to the cut.  (Dropping a prefix can never drop a tool
response while keeping its earlier originating assistant message.) -/
theorem safelyTruncateConversationHistory_props (h : List ConversationMessage)
    (hlen : maxHistoryLength < h.length) :
    safelyTruncateConversationHistory h = h.drop (removalPoint h) ∧
    removalPoint h + maxHistoryLength ≤ h.length ∧
    maxHistoryLength / 2 ≤ (safelyTruncateConversationHistory h).length ∧
    (removalPoint h ≠ 0 → roleAt h (removalPoint h) = some Role.user) ∧
    ((∀ j, 1 ≤ j → j + maxHistoryLength ≤ h.length →
        roleAt h j ≠ some Role.user) →
      safelyTruncateConversationHistory h = h) ∧
    (∀ a t m mt cid, h.get? a = some m → msgHasMatchingCall m cid = true →
      h.get? t = some mt → mt.role = Role.tool → mt.tool_call_id = some cid →
      a < t → (∀ j, a < j → j < t → roleAt h j ≠ some Role.user) →
      a < removalPoint h → t < removalPoint h) := by
  have hmax : maxHistoryLength = 10 := rfl
  have hnot : ¬ h.length ≤ maxHistoryLength := by omega
  have hdef : safelyTruncateConversationHistory h = h.drop (removalPoint h) := by
    unfold safelyTruncateConversationHistory
    rw [if_neg hnot]
  have hkdef : removalPoint h =
      removalPointLoop h (h.length - maxHistoryLength)
        (h.length - maxHistoryLength / 2 * 2) 0 0 := by
    unfold removalPoint
    rw [if_neg hnot]
  have hbound : h.length - maxHistoryLength / 2 * 2 = h.length - 10 := by
    rw [hmax]
  have hble : removalPoint h ≤ h.length - 10 := by
    rw [hkdef, hbound]
    have := removalPointLoop_le h (h.length - maxHistoryLength)
      (h.length - 10) 0 0 (Nat.le_refl 0)
    omega
  have huser : removalPoint h ≠ 0 → roleAt h (removalPoint h) = some Role.user := by
    intro hne
    have := removalPointLoop_user h (h.length - maxHistoryLength)
      (h.length - maxHistoryLength / 2 * 2) 0 0 (Or.inl rfl)
    rw [← hkdef] at this
    exact this.resolve_left hne
  refine ⟨hdef, by omega, ?_, huser, ?_, ?_⟩
  · rw [hdef, List.length_drop]
    omega
  · intro hno
    have h0 : removalPoint h = 0 := by
      rw [hkdef, hbound]
      exact removalPointLoop_no_user h (h.length - maxHistoryLength)
        (h.length - 10) 0 0 fun j h1 h2 => hno j (by omega) (by omega)
    rw [hdef, h0]
    exact List.drop_zero h
  · intro a t m mt cid _hga _hmatch hgt hrole _hcid _hat hnouser hak
    by_contra hnt
    have hkt : removalPoint h ≤ t := by omega
    have hk0 : removalPoint h ≠ 0 := by omega
    have hku : roleAt h (removalPoint h) = some Role.user := huser hk0
    have htr : roleAt h t = some Role.tool := by
      unfold roleAt
      rw [hgt]
      simp only [Option.map_some']
      rw [hrole]
    have hkt' : removalPoint h ≠ t := by
      intro he
      rw [he, htr] at hku
      exact Role.noConfusion (Option.some.injEq _ _ ▸ hku)
    exact hnouser (removalPoint h) (by omega) (by omega) hku

/-- **C6** counterexample to the claim as stated: an 11-message history in
which a user message sits between an assistant tool-call message and its
tool response.  Truncation cuts at that user message, dropping the
originating assistant message while keeping the tool-role response — an
orphan the claim rules out. -/
theorem safelyTruncateConversationHistory_orphan :
    safelyTruncateConversationHistory c6History = c6History.drop 1 ∧
    c6History.any (fun m => msgHasMatchingCall m "x") = true ∧
    (c6History.drop 1).any
      (fun m => m.role == Role.tool && m.tool_call_id == some "x") = true ∧
    (c6History.drop 1).any (fun m => msgHasMatchingCall m "x") = false := by
  refine ⟨?_, ?_, ?_, ?_⟩ <;> decide

/-- Witness for the truncation theorem at a concrete over-long history. -/
theorem safelyTruncateConversationHistory_props_witness :
    maxHistoryLength < c6History.length ∧
    safelyTruncateConversationHistory c6History =
      c6History.drop (removalPoint c6History) :=
  ⟨by decide, (safelyTruncateConversationHistory_props c6History (by decide)).1⟩

/-! ## OpenAIService.processQuery: one batch of tool calls (C2)

The Tool Runtime (`ToolExecutor.executeToolWithTimeout`, an external
collaborator) is an oracle returning either an output string or a thrown
error message.  `processQuery` appends, per dispatched call, one tool-role
message (output on success, `Error executing tool: …` on a caught error) —
except that an error whose message matches the OpenAI-API patterns breaks
out of the batch loop without recording anything for the throwing call or
the calls after it. -/

/-- Outcome of dispatching one tool call to the Tool Runtime. -/
inductive ExecOutcome
  | ok (output : String)
  | err (msg : String)
deriving DecidableEq, Repr

/-- The OpenAI-API error test used in `processQuery`'s tool-call `catch`. -/
def isOpenAIErrorMsg (s : String) : Bool :=
  strIncludes s "400 Invalid parameter" ||
  strIncludes s "invalid_request_error" ||
  strIncludes s "OpenAI API"

/-- Does dispatching this call throw an error detected as an OpenAI-API
error? -/
def throwsApiError (ex : ToolCall → ExecOutcome) (c : ToolCall) : Bool :=
  match ex c with
  | ExecOutcome.ok _ => false
  | ExecOutcome.err m => isOpenAIErrorMsg m

/-- The tool-role message `processQuery` records for a dispatched call. -/
def execResultMsg (ex : ToolCall → ExecOutcome) (c : ToolCall) :
    ConversationMessage :=
  match ex c with
  | ExecOutcome.ok out => toolMsg c.id out
  | ExecOutcome.err m => toolMsg c.id ("Error executing tool: " ++ m)

/-- The tool-call execution loop of `processQuery`: one recorded tool-role
message per call, but an OpenAI-API-matching thrown error breaks the loop,
recording nothing for the throwing call or later calls. -/
def executeToolCallsBatch (ex : ToolCall → ExecOutcome) :
    List ToolCall → List ConversationMessage
  | [] => []
  | c :: rest =>
    match ex c with
    | ExecOutcome.ok out => toolMsg c.id out :: executeToolCallsBatch ex rest
    | ExecOutcome.err m =>
      if isOpenAIErrorMsg m then []
      else toolMsg c.id ("Error executing tool: " ++ m) ::
        executeToolCallsBatch ex rest

/-- The placeholder content recorded while awaiting user permission. -/
def waitingForPermission : String := "Waiting for user permission..."

/-- The placeholder tool-role messages `processQuery` records, one per call
of the batch, before suspending for confirmation. -/
def placeholderMessagesFor (calls : List ToolCall) : List ConversationMessage :=
  calls.map fun c => toolMsg c.id waitingForPermission

/-- **C2** (amended).  In `processQuery`'s batch handling: the confirmation
path records exactly one placeholder tool-role result per input call, in
input order; the execution path records exactly one tool-role result per
call, in input order, for the longest front segment of calls whose dispatch
does not throw an OpenAI-API-matching error, and nothing from the first such
throwing call onward — in particular, when no dispatch throws such an error,
exactly one result per input call. -/
theorem processQuery_batch_one_result_per_call
    (ex : ToolCall → ExecOutcome) (calls : List ToolCall) :
    (placeholderMessagesFor calls).map (·.tool_call_id) =
      calls.map (fun c => some c.id) ∧
    executeToolCallsBatch ex calls =
      (calls.takeWhile fun c => !throwsApiError ex c).map (execResultMsg ex) ∧
    ((∀ c ∈ calls, throwsApiError ex c = false) →
      (executeToolCallsBatch ex calls).map (·.tool_call_id) =
        calls.map (fun c => some c.id)) := by
  refine ⟨?_, ?_, ?_⟩
  · unfold placeholderMessagesFor
    rw [List.map_map]
    rfl
  · induction calls with
    | nil => rfl
    | cons c rest ih =>
      unfold executeToolCallsBatch
      rw [List.takeWhile_cons]
      cases hex : ex c with
      | ok out =>
        have hthrow : (!throwsApiError ex c) = true := by
          unfold throwsApiError
          rw [hex]
          rfl
        have hres : execResultMsg ex c = toolMsg c.id out := by
          unfold execResultMsg
          rw [hex]
        rw [hthrow, if_pos rfl, List.map_cons, ih, hres]
      | err m =>
        cases hapi : isOpenAIErrorMsg m with
        | true =>
          have hthrow : (!throwsApiError ex c) = false := by
            unfold throwsApiError
            rw [hex]
            show (!isOpenAIErrorMsg m) = false
            rw [hapi]
            rfl
          rw [hthrow]
          simp only [hapi, Bool.false_eq_true, if_false]
          rfl
        | false =>
          have hthrow : (!throwsApiError ex c) = true := by
            unfold throwsApiError
            rw [hex]
            show (!isOpenAIErrorMsg m) = true
            rw [hapi]
            rfl
          have hres : execResultMsg ex c =
              toolMsg c.id ("Error executing tool: " ++ m) := by
            unfold execResultMsg
            rw [hex]
          rw [hthrow, if_pos rfl, List.map_cons, ih, hres]
          simp only [hapi, Bool.false_eq_true, if_false]
  · intro hnone
    induction calls with
    | nil => rfl
    | cons c rest ih =>
      unfold executeToolCallsBatch
      cases hex : ex c with
      | ok out =>
        rw [List.map_cons, List.map_cons,
          ih fun d hd => hnone d (List.mem_cons_of_mem c hd)]
        rfl
      | err m =>
        have hthis := hnone c (List.mem_cons_self c rest)
        unfold throwsApiError at hthis
        rw [hex] at hthis
        have hfalse : isOpenAIErrorMsg m = false := hthis
        simp only [hfalse, Bool.false_eq_true, if_false, List.map_cons]
        rw [ih fun d hd => hnone d (List.mem_cons_of_mem c hd)]
        rfl

/-- **C2** counterexample to the claim as stated: a one-call batch whose
dispatch throws an error matching the OpenAI-API patterns records zero
tool-role results, not one. -/
theorem processQuery_batch_missing_result :
    executeToolCallsBatch (fun _ => ExecOutcome.err "invalid_request_error: bad")
      [⟨"call_1", ⟨"read_file", "\x7b\x7d"⟩⟩] = [] ∧
    isOpenAIErrorMsg "invalid_request_error: bad" = true := by
  exact ⟨by decide, by decide⟩

/-- Witness for the batch theorem on a concrete two-call batch with a
non-API tool failure: both calls get exactly one recorded result. -/
theorem processQuery_batch_one_result_per_call_witness :
    (∀ c ∈ [ToolCall.mk "a1" ⟨"read_file", ""⟩,
            ToolCall.mk "a2" ⟨"list_dir", ""⟩],
      throwsApiError (fun c => if c.id = "a1" then ExecOutcome.ok "data"
        else ExecOutcome.err "disk broke") c = false) ∧
    (executeToolCallsBatch (fun c => if c.id = "a1" then ExecOutcome.ok "data"
        else ExecOutcome.err "disk broke")
      [ToolCall.mk "a1" ⟨"read_file", ""⟩, ToolCall.mk "a2" ⟨"list_dir", ""⟩]).map
        (·.tool_call_id) = [some "a1", some "a2"] :=
  ⟨by decide,
    (processQuery_batch_one_result_per_call
      (fun c => if c.id = "a1" then ExecOutcome.ok "data"
        else ExecOutcome.err "disk broke")
      [ToolCall.mk "a1" ⟨"read_file", ""⟩,
       ToolCall.mk "a2" ⟨"list_dir", ""⟩]).2.2 (by decide)⟩

/-! ## OpenAIService.continueWithPermission (C7, C10)

The permission re-entry point: it lower-cases the user reply and tests for
the substring `"yes"`.  It appends the reply as a user message.  When
granted, it walks the tool calls of the most recent assistant message that
carries a non-empty `tool_calls` list, dispatches each one, and rewrites
the first matching `Waiting for user permission...` placeholder in place
with the output (or `Error: …` text), appending a fresh tool message only
when no placeholder exists.  When denied it executes nothing and only adds
a guidance system message to the outgoing provider payload. -/

/-- Is this message the pending placeholder for the given tool-call id? -/
def isPendingPlaceholder (cid : String) (m : ConversationMessage) : Bool :=
  m.role == Role.tool && m.tool_call_id == some cid &&
    m.content == some waitingForPermission

/-- Replace the first pending placeholder for `cid` with `s` (content only);
`none` when no placeholder exists. -/
def replaceFirstPlaceholder (cid s : String) :
    List ConversationMessage → Option (List ConversationMessage)
  | [] => none
  | m :: rest =>
    if isPendingPlaceholder cid m then
      some ({ m with content := some s } :: rest)
    else
      match replaceFirstPlaceholder cid s rest with
      | some rest' => some (m :: rest')
      | none => none

/-- The text a granted dispatch writes into the placeholder. -/
def dispatchText (ex : ToolCall → ExecOutcome) (c : ToolCall) : String :=
  match ex c with
  | ExecOutcome.ok out => out
  | ExecOutcome.err m => "Error: " ++ m

/-- Resolve one permitted tool call against the history: rewrite its
placeholder in place, or append a fresh tool message when none is found. -/
def resolveOneCall (ex : ToolCall → ExecOutcome)
    (h : List ConversationMessage) (c : ToolCall) : List ConversationMessage :=
  match replaceFirstPlaceholder c.id (dispatchText ex c) h with
  | some h' => h'
  | none => addToConversationHistory h (toolMsg c.id (dispatchText ex c))

/-- The `tool_calls` of the most recent assistant message carrying a
non-empty tool-call list (the backwards scan of the source). -/
def lastAssistantToolCalls : List ConversationMessage → Option (List ToolCall)
  | [] => none
  | m :: rest =>
    match lastAssistantToolCalls rest with
    | some tcs => some tcs
    | none =>
      if m.role == Role.assistant then
        match m.tool_calls with
        | some tcs => if 0 < tcs.length then some tcs else none
        | none => none
      else none

/-- The guidance system message pushed into the payload on denial. -/
def deniedGuidance : String :=
  "Permission was denied by the user. Acknowledge this to the user and " ++
  "suggest alternative approaches that don" ++ aposStr ++
  "t require file or system changes."

/-- Observable outcome of `continueWithPermission`: the stored history, the
dispatched calls in order, the grant decision, and the provider payload. -/
structure ContinueResult where
  history : List ConversationMessage
  executed : List ToolCall
  granted : Bool
  payload : List ConversationMessage
deriving Repr

/-- `OpenAIService.continueWithPermission` (history and dispatch effects;
the trailing provider round trip is outside this embedding). -/
def continueWithPermission (ex : ToolCall → ExecOutcome) (sysPrompt : String)
    (h : List ConversationMessage) (reply : String) : ContinueResult :=
  let granted := strIncludes (strToLower reply) "yes"
  let h1 := addToConversationHistory h (userMsg reply)
  let resolved :=
    if granted then
      match lastAssistantToolCalls h1 with
      | some calls => (calls.foldl (resolveOneCall ex) h1, calls)
      | none => (h1, ([] : List ToolCall))
    else (h1, ([] : List ToolCall))
  { history := resolved.1, executed := resolved.2, granted := granted,
    payload := { role := Role.system, content := some sysPrompt } ::
      ((if granted then []
        else [{ role := Role.system, content := some deniedGuidance }]) ++
        resolved.1) }

/-- The per-message effect of resolving the batch `calls`: the first call
whose placeholder this message is rewrites its content. -/
def resolveSpec (ex : ToolCall → ExecOutcome) (calls : List ToolCall)
    (m : ConversationMessage) : ConversationMessage :=
  match calls.find? (fun c => isPendingPlaceholder c.id m) with
  | some c => { m with content := some (dispatchText ex c) }
  | none => m

section PermissionLemmas

/-- A conditional rewrite whose condition holds nowhere is the identity. -/
theorem map_ite_id {α : Type} (l : List α) (p : α → Bool) (f : α → α)
    (hp : ∀ m ∈ l, p m = false) :
    l.map (fun m => if p m then f m else m) = l := by
  induction l with
  | nil => rfl
  | cons x l ih =>
    rw [List.map_cons, hp x (List.mem_cons_self x l)]
    simp only [Bool.false_eq_true, if_false]
    rw [ih fun m hm => hp m (List.mem_cons_of_mem x hm)]

/-- `countP` is stable under a map that preserves the predicate pointwise. -/
theorem countP_map_congr {α : Type} (l : List α) (g : α → α) (p : α → Bool)
    (hpg : ∀ m ∈ l, p (g m) = p m) :
    (l.map g).countP p = l.countP p := by
  induction l with
  | nil => rfl
  | cons x l ih =>
    rw [List.map_cons, List.countP_cons, List.countP_cons,
      hpg x (List.mem_cons_self x l),
      ih fun m hm => hpg m (List.mem_cons_of_mem x hm)]

/-- Turn a Boolean equation with `false` into a negated condition. -/
theorem bool_not_true {b : Bool} (h : b = false) : ¬ b = true := by
  rw [h]
  exact Bool.false_ne_true

/-- With exactly one pending placeholder for `cid` in the history,
replacement succeeds and equals the pointwise conditional rewrite. -/
theorem replaceFirstPlaceholder_unique (cid s : String) :
    ∀ cur : List ConversationMessage,
      cur.countP (isPendingPlaceholder cid) = 1 →
      replaceFirstPlaceholder cid s cur =
        some (cur.map fun m => if isPendingPlaceholder cid m then
          { m with content := some s } else m) := by
  intro cur
  induction cur with
  | nil => intro hc; simp [List.countP_nil] at hc
  | cons m rest ih =>
    intro hc
    rw [List.countP_cons] at hc
    cases hm : isPendingPlaceholder cid m with
    | true =>
      rw [if_pos hm] at hc
      have hrest : rest.countP (isPendingPlaceholder cid) = 0 := by omega
      have hnone : ∀ m' ∈ rest, isPendingPlaceholder cid m' = false := by
        intro m' hm'
        have := List.countP_eq_zero.mp hrest m' hm'
        exact eq_false_of_ne_true this
      unfold replaceFirstPlaceholder
      rw [if_pos hm, List.map_cons, if_pos hm, map_ite_id rest _ _ hnone]
    | false =>
      rw [if_neg (bool_not_true hm)] at hc
      have hrest : rest.countP (isPendingPlaceholder cid) = 1 := by omega
      unfold replaceFirstPlaceholder
      rw [if_neg (bool_not_true hm), ih hrest, List.map_cons,
        if_neg (bool_not_true hm)]

/-- Decompose the conjunction of a true `isPendingPlaceholder` test. -/
theorem isPendingPlaceholder_parts {cid : String} {m : ConversationMessage}
    (hm : isPendingPlaceholder cid m = true) :
    m.role = Role.tool ∧ m.tool_call_id = some cid ∧
      m.content = some waitingForPermission := by
  unfold isPendingPlaceholder at hm
  rw [Bool.and_eq_true, Bool.and_eq_true] at hm
  exact ⟨eq_of_beq hm.1.1, eq_of_beq hm.1.2, eq_of_beq hm.2⟩

/-- A message whose `tool_call_id` is `cid` is no placeholder for a
different id. -/
theorem isPendingPlaceholder_other {cid did : String}
    {m : ConversationMessage} (hne : did ≠ cid)
    (hm : m.tool_call_id = some cid) :
    isPendingPlaceholder did m = false := by
  unfold isPendingPlaceholder
  have hbeq : (m.tool_call_id == some did) = false := by
    rw [hm, beq_eq_false_iff_ne]
    intro hcon
    exact hne (Option.some.injEq _ _ ▸ hcon).symm
  rw [hbeq]
  simp only [Bool.and_false, Bool.false_and]

/-- Folding the permitted calls over the history rewrites, per message, the
placeholder of the unique call it belongs to — provided call ids are
pairwise distinct and each call has exactly one pending placeholder. -/
theorem foldl_resolveOneCall (ex : ToolCall → ExecOutcome) :
    ∀ (calls : List ToolCall) (cur : List ConversationMessage),
      (calls.map (·.id)).Nodup →
      (∀ c ∈ calls, cur.countP (isPendingPlaceholder c.id) = 1) →
      calls.foldl (resolveOneCall ex) cur = cur.map (resolveSpec ex calls) := by
  intro calls
  induction calls with
  | nil =>
    intro cur _ _
    rw [List.foldl_nil]
    unfold resolveSpec
    simp only [List.find?_nil]
    rw [List.map_id']
  | cons c rest ih =>
    intro cur hnodup hcount
    rw [List.foldl_cons]
    have hcnt : cur.countP (isPendingPlaceholder c.id) = 1 :=
      hcount c (List.mem_cons_self c rest)
    have hres : resolveOneCall ex cur c =
        cur.map fun m => if isPendingPlaceholder c.id m then
          { m with content := some (dispatchText ex c) } else m := by
      unfold resolveOneCall
      rw [replaceFirstPlaceholder_unique c.id (dispatchText ex c) cur hcnt]
    rw [hres]
    have hid : c.id ∉ rest.map (·.id) := (List.nodup_cons.mp hnodup).1
    have hnodup' : (rest.map (·.id)).Nodup := (List.nodup_cons.mp hnodup).2
    have hdiff : ∀ d ∈ rest, d.id ≠ c.id := by
      intro d hd he
      exact hid (he ▸ List.mem_map_of_mem (·.id) hd)
    have hpres : ∀ d ∈ rest, ∀ m : ConversationMessage,
        isPendingPlaceholder d.id
          (if isPendingPlaceholder c.id m then
            { m with content := some (dispatchText ex c) } else m) =
        isPendingPlaceholder d.id m := by
      intro d hd m
      by_cases hpm : isPendingPlaceholder c.id m = true
      · rw [if_pos hpm]
        obtain ⟨_, hcid, _⟩ := isPendingPlaceholder_parts hpm
        rw [isPendingPlaceholder_other (hdiff d hd)
          (show ({ m with content := some (dispatchText ex c) } :
            ConversationMessage).tool_call_id = some c.id from hcid),
          isPendingPlaceholder_other (hdiff d hd) hcid]
      · rw [if_neg hpm]
    have hcount' : ∀ d ∈ rest,
        (cur.map fun m => if isPendingPlaceholder c.id m then
          { m with content := some (dispatchText ex c) } else m).countP
          (isPendingPlaceholder d.id) = 1 := by
      intro d hd
      rw [countP_map_congr cur _ _ fun m _ => hpres d hd m]
      exact hcount d (List.mem_cons_of_mem c hd)
    rw [ih _ hnodup' hcount', List.map_map]
    apply List.map_congr_left
    intro m _
    simp only [Function.comp_apply]
    unfold resolveSpec
    by_cases hpm : isPendingPlaceholder c.id m = true
    · rw [if_pos hpm]
      obtain ⟨_, hcid, _⟩ := isPendingPlaceholder_parts hpm
      have hnonefind : List.find? (fun d => isPendingPlaceholder d.id
          { m with content := some (dispatchText ex c) }) rest = none := by
        rw [List.find?_eq_none]
        intro d hd
        exact bool_not_true (isPendingPlaceholder_other (hdiff d hd)
          (show ({ m with content := some (dispatchText ex c) } :
            ConversationMessage).tool_call_id = some c.id from hcid))
      have hfindc : List.find? (fun c' => isPendingPlaceholder c'.id m)
          (c :: rest) = some c := List.find?_cons_of_pos rest hpm
      rw [hnonefind, hfindc]
    · rw [if_neg hpm]
      have hskip : List.find? (fun c' => isPendingPlaceholder c'.id m)
          (c :: rest) =
          List.find? (fun c' => isPendingPlaceholder c'.id m) rest :=
        List.find?_cons_of_neg rest hpm
      rw [hskip]

end PermissionLemmas

/-- A `update_file` tool call with id `"y"`, pending user permission. -/
def updateCallY : ToolCall := ⟨"y", ⟨"update_file", "\x7b\x7d"⟩⟩

/-- A history suspended on a permission request: the assistant requested
`update_file`, a placeholder stands in for its result, and the permission
question was sent. -/
def pendingPermissionHistory : List ConversationMessage :=
  [userMsg "please update my file",
   { role := Role.assistant, content := some "",
     tool_calls := some [updateCallY] },
   toolMsg "y" waitingForPermission,
   { role := Role.assistant,
     content := some
       "I need your permission to perform the following operations:" }]

/-- **C7** (amended).  On resumption: when the reply denies (no `"yes"`
substring), nothing is dispatched, the stored history only gains the user
reply — every placeholder keeps its `Waiting for user permission...`
content — and the denial guidance exists solely in the outgoing provider
payload; when the reply grants, the pending calls are dispatched in order
and each one's unique placeholder is rewritten in place with the dispatch
output (or `Error: …` text). -/
theorem continueWithPermission_resolution (ex : ToolCall → ExecOutcome)
    (sysPrompt : String) (h : List ConversationMessage) (reply : String) :
    ((continueWithPermission ex sysPrompt h reply).granted = false →
      (continueWithPermission ex sysPrompt h reply).executed = [] ∧
      (continueWithPermission ex sysPrompt h reply).history =
        addToConversationHistory h (userMsg reply) ∧
      (continueWithPermission ex sysPrompt h reply).payload =
        { role := Role.system, content := some sysPrompt } ::
        { role := Role.system, content := some deniedGuidance } ::
        (continueWithPermission ex sysPrompt h reply).history) ∧
    ((continueWithPermission ex sysPrompt h reply).granted = true →
      ∀ calls,
        lastAssistantToolCalls (addToConversationHistory h (userMsg reply)) =
          some calls →
        (calls.map (·.id)).Nodup →
        (∀ c ∈ calls, (addToConversationHistory h (userMsg reply)).countP
          (isPendingPlaceholder c.id) = 1) →
        (continueWithPermission ex sysPrompt h reply).executed = calls ∧
        (continueWithPermission ex sysPrompt h reply).history =
          (addToConversationHistory h (userMsg reply)).map
            (resolveSpec ex calls) ∧
        (continueWithPermission ex sysPrompt h reply).payload =
          { role := Role.system, content := some sysPrompt } ::
          (continueWithPermission ex sysPrompt h reply).history) := by
  by_cases hgr : strIncludes (strToLower reply) "yes" = true
  · constructor
    · intro hfalse
      have hg : (continueWithPermission ex sysPrompt h reply).granted =
          strIncludes (strToLower reply) "yes" := rfl
      rw [hg, hgr] at hfalse
      exact absurd hfalse (by decide)
    · intro _ calls hcalls hnodup hcount
      have hrec : continueWithPermission ex sysPrompt h reply =
          { history := calls.foldl (resolveOneCall ex)
              (addToConversationHistory h (userMsg reply)),
            executed := calls, granted := strIncludes (strToLower reply) "yes",
            payload := { role := Role.system, content := some sysPrompt } ::
              calls.foldl (resolveOneCall ex)
                (addToConversationHistory h (userMsg reply)) } := by
        unfold continueWithPermission
        rw [hgr]
        simp only [if_pos rfl, if_true, hcalls, List.nil_append]
      rw [hrec]
      exact ⟨rfl, foldl_resolveOneCall ex calls _ hnodup hcount, rfl⟩
  · have hgf : strIncludes (strToLower reply) "yes" = false :=
      eq_false_of_ne_true hgr
    constructor
    · intro _
      have hrec : continueWithPermission ex sysPrompt h reply =
          { history := addToConversationHistory h (userMsg reply),
            executed := [], granted := strIncludes (strToLower reply) "yes",
            payload := { role := Role.system, content := some sysPrompt } ::
              { role := Role.system, content := some deniedGuidance } ::
              addToConversationHistory h (userMsg reply) } := by
        unfold continueWithPermission
        rw [hgf]
        simp only [Bool.false_eq_true, if_false, List.singleton_append,
          List.cons_append, List.nil_append]
      rw [hrec]
      exact ⟨rfl, rfl, rfl⟩
    · intro htrue
      have hg : (continueWithPermission ex sysPrompt h reply).granted =
          strIncludes (strToLower reply) "yes" := rfl
      rw [hg, hgf] at htrue
      exact absurd htrue (by decide)

/-- **C7** counterexample to the claim as stated: replying `"no"` leaves the
placeholder content as `Waiting for user permission...` — it is not replaced
by any denial result — and dispatches nothing. -/
theorem continueWithPermission_denial_keeps_placeholder :
    (continueWithPermission (fun _ => ExecOutcome.ok "file updated") "SYS"
      pendingPermissionHistory "no").executed = [] ∧
    (continueWithPermission (fun _ => ExecOutcome.ok "file updated") "SYS"
      pendingPermissionHistory "no").history.countP
        (fun m => m.tool_call_id == some "y" &&
          m.content == some waitingForPermission) = 1 := by
  exact ⟨by decide, by decide⟩

/-- Witness for the resolution theorem: a granted resumption dispatches the
pending `update_file` call. -/
theorem continueWithPermission_resolution_witness :
    (continueWithPermission (fun _ => ExecOutcome.ok "file updated") "SYS"
      pendingPermissionHistory "yes").executed = [updateCallY] :=
  ((continueWithPermission_resolution (fun _ => ExecOutcome.ok "file updated")
      "SYS" pendingPermissionHistory "yes").2 (by decide) [updateCallY]
      (by decide) (by decide) (by decide)).1

/-- **C10** (confirmed).  Permission is granted exactly when the lower-cased
reply contains the substring `"yes"`: the reply `"no, do not say yes"`
grants and dispatches the pending breaking call, while `"approved"` denies
and dispatches nothing. -/
theorem continueWithPermission_yes_substring :
    (∀ (ex : ToolCall → ExecOutcome) (sysPrompt : String)
        (h : List ConversationMessage) (reply : String),
      (continueWithPermission ex sysPrompt h reply).granted =
        strIncludes (strToLower reply) "yes") ∧
    strIncludes (strToLower "no, do not say yes") "yes" = true ∧
    strIncludes (strToLower "approved") "yes" = false ∧
    (continueWithPermission (fun _ => ExecOutcome.ok "executed") "SYS"
      pendingPermissionHistory "no, do not say yes").executed =
        [updateCallY] ∧
    (continueWithPermission (fun _ => ExecOutcome.ok "executed") "SYS"
      pendingPermissionHistory "approved").executed = [] := by
  exact ⟨fun ex sp h reply => rfl, by decide, by decide, by decide, by decide⟩

/-! ## ConversationManager.summarizeConversationHistory (C8)

File references are harvested before summarizing: regular-expression
matches over string contents (kept when they contain a dot and do not end
in a slash) and the `FilePath`/`DirectoryPath`/`TargetFile`/`AbsolutePath`
argument fields of tool calls.  The host regular-expression engine and JSON
parser are oracles `detect` and `extractArgs`; the collected set (a JS
`Set`, insertion-ordered and deduplicating) is attached verbatim to the
summary message in the provider-success branch and in the statistical
fallback branch alike. -/

/-- JS `Set.add` on the insertion-ordered list model. -/
def insertRef (acc : List String) (s : String) : List String :=
  if acc.contains s then acc else acc ++ [s]

/-- The filter applied to content matches: keep likely file paths. -/
def likelyFilePath (t : String) : Bool :=
  strIncludes t "." && !strEndsWith t "/"

/-- Add the filtered regular-expression matches of a message's content. -/
def addContentRefs (detect : String → List String) (acc : List String)
    (m : ConversationMessage) : List String :=
  match m.content with
  | some s => (detect s).foldl
      (fun a t => if likelyFilePath t then insertRef a t else a) acc
  | none => acc

/-- Add the file-path argument fields of a message's tool calls. -/
def addArgRefs (extractArgs : String → List String) (acc : List String)
    (m : ConversationMessage) : List String :=
  match m.tool_calls with
  | some tcs => tcs.foldl
      (fun a tc => (extractArgs tc.function.arguments).foldl insertRef a) acc
  | none => acc

/-- The per-message harvesting step of `summarizeConversationHistory`. -/
def stepFileRefs (detect extractArgs : String → List String)
    (acc : List String) (m : ConversationMessage) : List String :=
  addArgRefs extractArgs (addContentRefs detect acc m) m

/-- All file references harvested from a history, in insertion order. -/
def collectFileReferences (detect extractArgs : String → List String)
    (h : List ConversationMessage) : List String :=
  h.foldl (stepFileRefs detect extractArgs) []

/-- The synthetic system message returned by summarization. -/
structure SummarizedHistoryMessage where
  role : Role
  content : String
  file_references : Option (List String) := none
deriving DecidableEq, Repr

/-- Outcome of the summarization completion call (an oracle): the optional
content of the first choice, or a thrown error. -/
inductive SummaryOutcome
  | ok (content : Option String)
  | fail
deriving DecidableEq, Repr

/-- `ConversationManager.summarizeConversationHistory`. -/
def summarizeConversationHistory (detect extractArgs : String → List String)
    (provider : SummaryOutcome) (h : List ConversationMessage) :
    SummarizedHistoryMessage :=
  if h.isEmpty then
    { role := Role.system, content := "No conversation history yet." }
  else
    let refs := collectFileReferences detect extractArgs h
    match provider with
    | SummaryOutcome.ok c =>
      { role := Role.system,
        content := match c with
          | some s =>
            if s ≠ "" then s else "Failed to generate conversation summary."
          | none => "Failed to generate conversation summary.",
        file_references := some refs }
    | SummaryOutcome.fail =>
      { role := Role.system,
        content := "Conversation summary (fallback): " ++
          toString (h.filter (fun m => m.role == Role.user)).length ++
          " user messages, " ++
          toString (h.filter (fun m => m.role == Role.assistant)).length ++
          " assistant messages, " ++
          toString (h.filter (fun m => m.role == Role.tool)).length ++
          " tool interactions.",
        file_references := some refs }

/-- A token the harvesting pass detects in the history: a filtered content
match, or an extracted tool-argument field. -/
def isDetectedToken (detect extractArgs : String → List String)
    (h : List ConversationMessage) (t : String) : Prop :=
  (∃ m ∈ h, ∃ s, m.content = some s ∧ t ∈ detect s ∧
    likelyFilePath t = true) ∨
  (∃ m ∈ h, ∃ tcs, m.tool_calls = some tcs ∧
    ∃ tc ∈ tcs, t ∈ extractArgs tc.function.arguments)

section SummaryLemmas

/-- Inserting never loses members. -/
theorem mem_insertRef {u : String} {acc : List String} (hu : u ∈ acc)
    (s : String) : u ∈ insertRef acc s := by
  unfold insertRef
  by_cases hc : acc.contains s = true
  · rw [if_pos hc]; exact hu
  · rw [if_neg hc]; exact List.mem_append_left _ hu

/-- Inserting a value makes it a member. -/
theorem self_mem_insertRef (acc : List String) (t : String) :
    t ∈ insertRef acc t := by
  unfold insertRef
  by_cases hc : acc.contains t = true
  · rw [if_pos hc]; exact List.elem_iff.mp hc
  · rw [if_neg hc]; exact List.mem_append_right _ (List.mem_singleton.mpr rfl)

/-- A fold whose step never loses members never loses members. -/
theorem foldl_mem_mono {α : Type} (l : List α)
    (f : List String → α → List String)
    (hf : ∀ a x, ∀ u ∈ a, u ∈ f a x) :
    ∀ acc, ∀ u ∈ acc, u ∈ l.foldl f acc := by
  induction l with
  | nil => intro acc u hu; exact hu
  | cons x l ih => intro acc u hu; exact ih (f acc x) u (hf acc x u hu)

/-- A filtered-insert fold contains every passing member of its input. -/
theorem foldl_insertRef_hit (cond : String → Bool) :
    ∀ (ts : List String) (acc : List String) (t : String), t ∈ ts →
      cond t = true →
      t ∈ ts.foldl (fun a u => if cond u then insertRef a u else a) acc := by
  intro ts
  induction ts with
  | nil => intro acc t ht; exact absurd ht (List.not_mem_nil t)
  | cons x ts ih =>
    intro acc t ht hcond
    rw [List.foldl_cons]
    rcases List.mem_cons.mp ht with hx | hts
    · subst hx
      apply foldl_mem_mono
      · intro a x u hu
        by_cases hcx : cond x = true
        · rw [if_pos hcx]; exact mem_insertRef hu x
        · rw [if_neg hcx]; exact hu
      · rw [if_pos hcond]
        exact self_mem_insertRef acc t
    · exact ih _ t hts hcond

/-- An unconditional insert fold contains every member of its input. -/
theorem foldl_insertRef_all :
    ∀ (ts acc : List String) (t : String), t ∈ ts →
      t ∈ ts.foldl insertRef acc := by
  intro ts
  induction ts with
  | nil => intro acc t ht; exact absurd ht (List.not_mem_nil t)
  | cons x ts ih =>
    intro acc t ht
    rw [List.foldl_cons]
    rcases List.mem_cons.mp ht with hx | hts
    · subst hx
      exact foldl_mem_mono ts insertRef (fun a x u hu => mem_insertRef hu x)
        (insertRef acc t) t (self_mem_insertRef acc t)
    · exact ih _ t hts

/-- The tool-call argument fold contains every extracted token. -/
theorem foldl_argRefs_hit (extractArgs : String → List String) :
    ∀ (tcs : List ToolCall) (acc : List String) (t : String) (tc : ToolCall),
      tc ∈ tcs → t ∈ extractArgs tc.function.arguments →
      t ∈ tcs.foldl
        (fun a tc' => (extractArgs tc'.function.arguments).foldl insertRef a)
        acc := by
  intro tcs
  induction tcs with
  | nil => intro acc t tc htc; exact absurd htc (List.not_mem_nil tc)
  | cons tc0 tcs ihtc =>
    intro acc t tc htc hext
    rw [List.foldl_cons]
    rcases List.mem_cons.mp htc with he0 | htl
    · subst he0
      apply foldl_mem_mono
      · intro a x u hu
        exact foldl_mem_mono _ insertRef
          (fun a' y u' hu' => mem_insertRef hu' y) a u hu
      · exact foldl_insertRef_all _ _ t hext
    · exact ihtc _ t tc htl hext

/-- The content-harvesting step never loses members. -/
theorem addContentRefs_mono (detect : String → List String)
    (acc : List String) (m : ConversationMessage) :
    ∀ u ∈ acc, u ∈ addContentRefs detect acc m := by
  intro u hu
  unfold addContentRefs
  cases m.content with
  | none => exact hu
  | some s =>
    apply foldl_mem_mono
    · intro a x v hv
      by_cases hcx : likelyFilePath x = true
      · rw [if_pos hcx]; exact mem_insertRef hv x
      · rw [if_neg hcx]; exact hv
    · exact hu

/-- The argument-harvesting step never loses members. -/
theorem addArgRefs_mono (extractArgs : String → List String)
    (acc : List String) (m : ConversationMessage) :
    ∀ u ∈ acc, u ∈ addArgRefs extractArgs acc m := by
  intro u hu
  unfold addArgRefs
  cases m.tool_calls with
  | none => exact hu
  | some tcs =>
    apply foldl_mem_mono
    · intro a tc v hv
      exact foldl_mem_mono _ insertRef (fun a' x u' hu' => mem_insertRef hu' x)
        a v hv
    · exact hu

/-- Every detected token ends up in the harvested collection. -/
theorem mem_collectFileReferences (detect extractArgs : String → List String) :
    ∀ (h : List ConversationMessage) (acc : List String) (t : String),
      (t ∈ acc ∨ isDetectedToken detect extractArgs h t) →
      t ∈ h.foldl (stepFileRefs detect extractArgs) acc := by
  intro h
  induction h with
  | nil =>
    intro acc t ht
    rcases ht with hin | hdet
    · exact hin
    · rcases hdet with ⟨m, hm, _⟩ | ⟨m, hm, _⟩ <;>
        exact absurd hm (List.not_mem_nil m)
  | cons m rest ih =>
    intro acc t ht
    rw [List.foldl_cons]
    apply ih
    rcases ht with hin | hdet
    · exact Or.inl (addArgRefs_mono extractArgs _ m t
        (addContentRefs_mono detect acc m t hin))
    · rcases hdet with ⟨m', hm', s, hcont, hdet', hfilter⟩ |
        ⟨m', hm', tcs, htcs, tc, htc, hext⟩
      · rcases List.mem_cons.mp hm' with he | hrest
        · subst he
          refine Or.inl (addArgRefs_mono extractArgs _ m' t ?_)
          unfold addContentRefs
          rw [hcont]
          exact foldl_insertRef_hit likelyFilePath _ acc t hdet' hfilter
        · exact Or.inr (Or.inl ⟨m', hrest, s, hcont, hdet', hfilter⟩)
      · rcases List.mem_cons.mp hm' with he | hrest
        · subst he
          refine Or.inl ?_
          unfold stepFileRefs addArgRefs
          rw [htcs]
          exact foldl_argRefs_hit extractArgs tcs _ t tc htc hext
        · exact Or.inr (Or.inr ⟨m', hrest, tcs, htcs, tc, htc, hext⟩)

end SummaryLemmas

/-- **C8** (confirmed).  Every file-path-like token the harvesting pass
detects — in message contents or in the file-path argument fields of tool
calls — appears in the `file_references` list of the summary message, in
the provider-success branch and in the statistical fallback branch alike.
(An empty history detects no tokens, so its reference-free early return is
vacuously covered.) -/
theorem summarizeConversationHistory_preserves_refs
    (detect extractArgs : String → List String) (provider : SummaryOutcome)
    (h : List ConversationMessage) (t : String)
    (hdet : isDetectedToken detect extractArgs h t) :
    t ∈ (summarizeConversationHistory detect extractArgs provider
      h).file_references.getD [] := by
  have hne : h.isEmpty = false := by
    rcases hdet with ⟨m, hm, _⟩ | ⟨m, hm, _⟩ <;>
      (cases h with
       | nil => exact absurd hm (List.not_mem_nil m)
       | cons a l => rfl)
  have hmem : t ∈ collectFileReferences detect extractArgs h :=
    mem_collectFileReferences detect extractArgs h [] t (Or.inr hdet)
  unfold summarizeConversationHistory
  rw [hne]
  simp only [Bool.false_eq_true, if_false]
  cases provider with
  | ok c => exact hmem
  | fail => exact hmem

/-- Witness: the path `/tmp/notes.txt` detected in a user message survives
into the fallback summary's reference list. -/
theorem summarizeConversationHistory_preserves_refs_witness :
    "/tmp/notes.txt" ∈ (summarizeConversationHistory (fun s => [s])
      (fun _ => []) SummaryOutcome.fail
      [userMsg "/tmp/notes.txt"]).file_references.getD [] :=
  summarizeConversationHistory_preserves_refs (fun s => [s]) (fun _ => [])
    SummaryOutcome.fail [userMsg "/tmp/notes.txt"] "/tmp/notes.txt"
    (Or.inl ⟨userMsg "/tmp/notes.txt", List.mem_singleton.mpr rfl,
      "/tmp/notes.txt", rfl, List.mem_singleton.mpr rfl, by decide⟩)

/-! ## AgentLoopService.executeAgentLoop (C3, C4, C5)

The loop is embedded as a state machine over `LoopState`, driven by an
environment of oracles: the completion provider (one outcome per
iteration), the Tool Runtime, the user-confirmation dialog and the response
generator.  `ToolCallProcessor.processToolCalls`,
`ConversationManager.sanitizeToolMessages` and
`IMessageFormatterService.shouldSummarizeHistory` are repository components
whose implementations are not under `src/`; they are modelled from the
spec (each marked below).  The payload formatting itself does not feed back
into control flow and is not modelled; the summarization round trip's
history side effect (clear, re-add older, clear, re-add original — each
re-add passing through truncation) is. -/

/-- An assistant completion response: content and requested tool calls. -/
structure AssistantResponse where
  content : Option String := none
  tool_calls : Option (List ToolCall) := none
deriving DecidableEq, Repr

/-- Outcome of one `createChatCompletion` call. -/
inductive ProviderOutcome
  | ok (resp : AssistantResponse)
  | fail (errMsg : String)
deriving DecidableEq, Repr

/-- The loop's external collaborators: completion provider by iteration
number, tool runtime, confirmation dialog by iteration number, and the
response generator. -/
structure LoopEnv where
  provider : Nat → ProviderOutcome
  exec : ToolCall → ExecOutcome
  approve : Nat → Bool
  gen : AssistantResponse → String

/-- A tool result as assembled by the tool-call processor. -/
structure ToolResult where
  tool_call_id : String
  output : String
  success : Bool
deriving DecidableEq, Repr

/-- Modelled from the spec: `ToolCallProcessor.processToolCalls` is called
by `executeAgentLoop` but its implementation is not under `src/`.  Spec
§4.3: partition by breaking names; when breaking calls exist and the batch
is unconfirmed, return `requiresConfirmation` with no results yet;
otherwise dispatch every call, capturing exceptions into
`ToolResult{success:false}`, one result per call in input order. -/
def processToolCalls (ex : ToolCall → ExecOutcome) (calls : List ToolCall)
    (breaking : List String) : Bool × List ToolResult :=
  if calls.any (fun c => breaking.contains c.function.name) then (true, [])
  else (false, calls.map fun c =>
    match ex c with
    | ExecOutcome.ok out => ⟨c.id, out, true⟩
    | ExecOutcome.err m => ⟨c.id, "Error: " ++ m, false⟩)

/-- Modelled from the spec: `ConversationManager.sanitizeToolMessages` is
called by the loop (its returned count is logged) but is not under `src/`;
the spec's sanitize removes orphan tool-role messages and returns the
count removed.  In the validation-error handler its result is immediately
superseded by `clearConversationHistory`. -/
def sanitizeToolMessages (h : List ConversationMessage) :
    List ConversationMessage × Nat :=
  sanitizeSpec h

/-- The validation-error handler: sanitize, then clear the whole history. -/
def sanitizeThenClear (h : List ConversationMessage) :
    List ConversationMessage :=
  let _sanitized := sanitizeToolMessages h
  []

/-- Estimated serialized payload size: content lengths plus tool-call name
and argument lengths (the inline estimate of `processQuery`). -/
def estimatePayloadSize (h : List ConversationMessage) : Nat :=
  h.foldl (fun acc m =>
    let acc1 := acc + (match m.content with
      | some s => s.length
      | none => 0)
    match m.tool_calls with
    | some tcs => tcs.foldl
        (fun a tc => a + tc.function.name.length +
          tc.function.arguments.length) acc1
    | none => acc1) 0

/-- Modelled from the spec: `shouldSummarizeHistory`, whose implementation
is not under `src/` — estimated payload size over the byte threshold, or
message count over the count threshold (matching the inline check of
`processQuery`). -/
def shouldSummarizeHistory (h : List ConversationMessage)
    (maxPayload maxMessages : Nat) : Bool :=
  maxPayload < estimatePayloadSize h || maxMessages < h.length

/-- The tool names requiring user confirmation. -/
def breakingChangeTools : List String :=
  ["create_file", "update_file", "create_directory", "run_command"]

/-- The constants of `AgentLoopService`. -/
def maxIterations : Nat := 10

def maxPayloadSize : Nat := 100000

def maxMessagesBeforeSummary : Nat := 12

/-- The assistant message appended for a completion response. -/
def assistantMessageOf (resp : AssistantResponse) : ConversationMessage :=
  { role := Role.assistant, content := resp.content,
    tool_calls := resp.tool_calls }

/-- The tool-role message appended for a tool result. -/
def toolMsgOfResult (r : ToolResult) : ConversationMessage :=
  toolMsg r.tool_call_id r.output

/-- The OpenAI-validation-error test of `executeAgentLoop`'s inner catch. -/
def isValidationErrorMsg (s : String) : Bool :=
  strIncludes s "400 Invalid parameter" ||
  strIncludes s ("messages with role " ++ aposStr ++ "tool" ++ aposStr ++
    " must be a response") ||
  strIncludes s "invalid_request_error"

/-- The fixed apology returned when a validation error aborts the loop. -/
def apologyReset : String :=
  "I encountered an API error while processing your request. " ++
  "The conversation has been reset. " ++
  "Please try your question again with simpler instructions."

/-- The error recorded when the confirmation dialog is denied. -/
def deniedErrorText : String :=
  "User denied permission for the assistant to make changes"

/-- The loop-local state of one `executeAgentLoop` invocation, extended
with observation fields: the number of provider calls made and the trace of
dispatched tool calls. -/
structure LoopState where
  history : List ConversationMessage
  lastError : Option String := none
  iterations : Nat := 0
  providerCalls : Nat := 0
  finalResponse : String := ""
  loopComplete : Bool := false
  forceExit : Bool := false
  executed : List ToolCall := []
deriving Repr

/-- Append tool results to the history and record a failed result (if any)
as the error for the next tick. -/
def appendResults (st : LoopState) (results : List ToolResult) : LoopState :=
  let st' := { st with history :=
    addAllToConversationHistory st.history (results.map toolMsgOfResult) }
  match results.find? (fun r => !r.success) with
  | some fr =>
    { st' with lastError := some ("Tool execution failed: " ++ fr.output) }
  | none => st'

/-- The `done`-tool short circuit: process only the `done` call, append its
result, and terminate with its output (or the generated fallback when that
output is empty). -/
def doneBranch (env : LoopEnv) (st1 : LoopState) (resp : AssistantResponse)
    (dc : ToolCall) : LoopState :=
  let results := (processToolCalls env.exec [dc] []).2
  let st2 := { st1 with
    history := addAllToConversationHistory st1.history
      (results.map toolMsgOfResult),
    executed := st1.executed ++ [dc] }
  let out := ((results.head?).map (·.output)).getD ""
  { st2 with
    finalResponse := if out ≠ "" then out else env.gen resp,
    loopComplete := true }

/-- Regular batch processing: confirmation for breaking calls (a denial is
thrown and lands in the iteration catch as `lastError`), else dispatch and
append results. -/
def regularBranch (env : LoopEnv) (st1 : LoopState) (n : Nat)
    (calls : List ToolCall) : LoopState :=
  let pr := processToolCalls env.exec calls breakingChangeTools
  if pr.1 then
    if env.approve n then appendResults st1 pr.2
    else { st1 with lastError := some deniedErrorText }
  else
    appendResults { st1 with executed := st1.executed ++ calls } pr.2

/-- Dispatch on one provider outcome (the body of the iteration `try`). -/
def handleProviderOutcome (env : LoopEnv) (st : LoopState) (n : Nat) :
    ProviderOutcome → LoopState
  | ProviderOutcome.fail e =>
    if isValidationErrorMsg e then
      { st with
        history := sanitizeThenClear st.history,
        forceExit := true,
        loopComplete := true,
        finalResponse := apologyReset }
    else { st with lastError := some e }
  | ProviderOutcome.ok resp =>
    let st1 := { st with history :=
      addToConversationHistory st.history (assistantMessageOf resp) }
    match resp.tool_calls with
    | none => { st1 with finalResponse := env.gen resp, loopComplete := true }
    | some calls =>
      if calls.length = 0 then
        { st1 with finalResponse := env.gen resp, loopComplete := true }
      else
        match calls.find? (fun c => c.function.name == "done") with
        | some dc => doneBranch env st1 resp dc
        | none => regularBranch env st1 n calls

/-- One iteration of `executeAgentLoop` from the provider call onward
(`n` is the iteration number used to index the oracles). -/
def loopStepCore (env : LoopEnv) (st : LoopState) (n : Nat) : LoopState :=
  handleProviderOutcome env st n (env.provider n)

/-- One full iteration: count the tick, run the summarization history
round trip when triggered, call the provider, handle the outcome. -/
def loopStep (env : LoopEnv) (st : LoopState) : LoopState :=
  let n := st.iterations + 1
  let h' := if shouldSummarizeHistory st.history maxPayloadSize
      maxMessagesBeforeSummary = true ∧ 2 < st.history.length then
      addAllToConversationHistory [] st.history
    else st.history
  let stepped := loopStepCore env { st with history := h' } n
  { stepped with iterations := n, providerCalls := st.providerCalls + 1 }

/-- The while loop (`fuel` bounds recursion; the guard is the source's
`!loopComplete && !forceExitLoop && iterations < MAX_ITERATIONS`). -/
def loopRun (env : LoopEnv) : Nat → LoopState → LoopState
  | 0, st => st
  | fuel + 1, st =>
    if st.loopComplete = false ∧ st.forceExit = false ∧
        st.iterations < maxIterations then
      loopRun env fuel (loopStep env st)
    else st

/-- The failure message produced when the loop ends without completing. -/
def failureResponse (lastError : Option String) : String :=
  "I" ++ aposStr ++
  "m sorry, but I encountered an issue while processing your request. " ++
  match lastError with
  | some m => "Error: " ++ m
  | none => "Please try again with a clearer or simpler query."

/-- `AgentLoopService.executeAgentLoop`: append the query, loop, and fall
back to the failure message when the loop never completed. -/
def executeAgentLoop (env : LoopEnv) (h : List ConversationMessage)
    (query : String) : LoopState :=
  let st0 : LoopState := { history := addToConversationHistory h (userMsg query) }
  let stf := loopRun env (maxIterations + 1) st0
  if stf.loopComplete = false then
    { stf with finalResponse := failureResponse stf.lastError }
  else stf

section LoopLemmas

/-- Each iteration advances the iteration counter by exactly one. -/
theorem loopStep_iterations (env : LoopEnv) (st : LoopState) :
    (loopStep env st).iterations = st.iterations + 1 := rfl

/-- Each iteration makes exactly one completion-provider call. -/
theorem loopStep_providerCalls (env : LoopEnv) (st : LoopState) :
    (loopStep env st).providerCalls = st.providerCalls + 1 := rfl

/-- The while guard keeps the iteration counter within the ceiling. -/
theorem loopRun_iterations_le (env : LoopEnv) :
    ∀ (fuel : Nat) (st : LoopState), st.iterations ≤ maxIterations →
      (loopRun env fuel st).iterations ≤ maxIterations := by
  intro fuel
  induction fuel with
  | zero => intro st hle; exact hle
  | succ fuel ih =>
    intro st hle
    unfold loopRun
    by_cases hg : st.loopComplete = false ∧ st.forceExit = false ∧
      st.iterations < maxIterations
    · rw [if_pos hg]
      apply ih
      rw [loopStep_iterations]
      have := hg.2.2
      omega
    · rw [if_neg hg]; exact hle

/-- Provider calls track iterations one to one. -/
theorem loopRun_calls_eq (env : LoopEnv) :
    ∀ (fuel : Nat) (st : LoopState), st.providerCalls = st.iterations →
      (loopRun env fuel st).providerCalls =
        (loopRun env fuel st).iterations := by
  intro fuel
  induction fuel with
  | zero => intro st he; exact he
  | succ fuel ih =>
    intro st he
    unfold loopRun
    by_cases hg : st.loopComplete = false ∧ st.forceExit = false ∧
      st.iterations < maxIterations
    · rw [if_pos hg]
      apply ih
      rw [loopStep_iterations, loopStep_providerCalls, he]
    · rw [if_neg hg]; exact he

/-- Once complete (or force-exited), the loop makes no further step. -/
theorem loopRun_stop (env : LoopEnv) :
    ∀ (fuel : Nat) (st : LoopState),
      (st.loopComplete = true ∨ st.forceExit = true) →
      loopRun env fuel st = st := by
  intro fuel
  cases fuel with
  | zero => intro st _; rfl
  | succ fuel =>
    intro st hstop
    unfold loopRun
    rw [if_neg]
    intro hg
    rcases hstop with hc | hf
    · rw [hc] at hg; exact absurd hg.1 (by decide)
    · rw [hf] at hg; exact absurd hg.2.1 (by decide)

end LoopLemmas

/-- **C5** (confirmed).  `executeAgentLoop` performs at most 10 iterations
and hence at most 10 completion-provider calls; when the loop ends without
completing, the response is the failure message citing the last recorded
error (or the generic fallback when none was recorded), and no further
provider call is attempted. -/
theorem executeAgentLoop_iteration_ceiling (env : LoopEnv)
    (h : List ConversationMessage) (query : String) :
    (executeAgentLoop env h query).iterations ≤ maxIterations ∧
    (executeAgentLoop env h query).providerCalls ≤ maxIterations ∧
    ((executeAgentLoop env h query).loopComplete = false →
      (executeAgentLoop env h query).finalResponse =
        failureResponse (executeAgentLoop env h query).lastError) := by
  have hit : (loopRun env (maxIterations + 1)
      { history := addToConversationHistory h (userMsg query) }).iterations ≤
      maxIterations :=
    loopRun_iterations_le env _ _ (Nat.zero_le _)
  have hcalls : (loopRun env (maxIterations + 1)
      { history := addToConversationHistory h (userMsg query) }).providerCalls =
      (loopRun env (maxIterations + 1)
      { history := addToConversationHistory h (userMsg query) }).iterations :=
    loopRun_calls_eq env _ _ rfl
  by_cases hcomp : (loopRun env (maxIterations + 1)
      { history := addToConversationHistory h (userMsg query) }).loopComplete =
      false
  · have heq : executeAgentLoop env h query =
        { (loopRun env (maxIterations + 1)
            { history := addToConversationHistory h (userMsg query) }) with
          finalResponse := failureResponse (loopRun env (maxIterations + 1)
            { history := addToConversationHistory h (userMsg query) }).lastError } := by
      simp only [executeAgentLoop]
      rw [if_pos hcomp]
    rw [heq]
    exact ⟨hit, by rw [show ({ (loopRun env (maxIterations + 1)
        { history := addToConversationHistory h (userMsg query) }) with
        finalResponse := failureResponse _ } : LoopState).providerCalls =
        (loopRun env (maxIterations + 1)
        { history := addToConversationHistory h (userMsg query) }).providerCalls
        from rfl, hcalls]; exact hit, fun _ => rfl⟩
  · have heq : executeAgentLoop env h query =
        loopRun env (maxIterations + 1)
          { history := addToConversationHistory h (userMsg query) } := by
      simp only [executeAgentLoop]
      rw [if_neg hcomp]
    rw [heq]
    exact ⟨hit, by rw [hcalls]; exact hit, fun hc => absurd hc hcomp⟩

/-- A provider that always fails transiently (no validation pattern). -/
def envTransient : LoopEnv :=
  { provider := fun _ => ProviderOutcome.fail "network down",
    exec := fun _ => ExecOutcome.ok "",
    approve := fun _ => true,
    gen := fun _ => "done" }

/-- Witness: with a provider failing transiently on every tick, the loop
exhausts its ceiling and reports the failure message with the last error. -/
theorem executeAgentLoop_iteration_ceiling_witness :
    (executeAgentLoop envTransient [] "hello").finalResponse =
      failureResponse (executeAgentLoop envTransient [] "hello").lastError :=
  (executeAgentLoop_iteration_ceiling envTransient [] "hello").2.2 (by decide)

/-- A validation-matching provider failure makes the outcome handler
sanitize-then-clear the history and abort with the fixed apology. -/
theorem handleProviderOutcome_validation (env : LoopEnv) (st : LoopState)
    (n : Nat) (e : String) (hval : isValidationErrorMsg e = true) :
    handleProviderOutcome env st n (ProviderOutcome.fail e) =
      { st with
        history := [],
        forceExit := true,
        loopComplete := true,
        finalResponse := apologyReset } := by
  simp only [handleProviderOutcome]
  rw [if_pos hval]
  rfl

/-- **C4** (amended).  When the completion call of an iteration fails with
an error matching the protocol-validation patterns, the loop sanitizes and
then clears the conversation history — leaving it empty, with no system
message appended on this path — terminates at once with the fixed apology
`I encountered an API error while processing your request. The conversation
has been reset. Please try your question again with simpler instructions.`,
and makes no further provider call in the same invocation.  (The
`conversation has been reset` system message and the other apology text
live only in an outer catch-all handler that an in-loop completion failure
never reaches.) -/
theorem executeAgentLoop_validation_error_reset (env : LoopEnv)
    (st : LoopState) (e : String)
    (hfail : env.provider (st.iterations + 1) = ProviderOutcome.fail e)
    (hval : isValidationErrorMsg e = true) :
    (loopStep env st).history = [] ∧
    (loopStep env st).finalResponse = apologyReset ∧
    (loopStep env st).loopComplete = true ∧
    (loopStep env st).forceExit = true ∧
    (loopStep env st).providerCalls = st.providerCalls + 1 ∧
    ∀ fuel, loopRun env fuel (loopStep env st) = loopStep env st := by
  have hstep : ∀ mid : LoopState,
      loopStepCore env mid (st.iterations + 1) =
        { mid with
          history := [],
          forceExit := true,
          loopComplete := true,
          finalResponse := apologyReset } := by
    intro mid
    unfold loopStepCore
    rw [hfail]
    exact handleProviderOutcome_validation env mid _ e hval
  have hrec : loopStep env st =
      { st with
        history := [],
        iterations := st.iterations + 1,
        providerCalls := st.providerCalls + 1,
        forceExit := true,
        loopComplete := true,
        finalResponse := apologyReset } := by
    simp only [loopStep]
    rw [hstep]
  refine ⟨by rw [hrec], by rw [hrec], by rw [hrec], by rw [hrec],
    by rw [hrec], fun fuel => loopRun_stop env fuel _ (Or.inl (by rw [hrec]))⟩

/-- A provider that always fails with a protocol-validation error. -/
def envValidationFail : LoopEnv :=
  { provider := fun _ => ProviderOutcome.fail
      "400 Invalid parameter: invalid_request_error at messages.1",
    exec := fun _ => ExecOutcome.ok "",
    approve := fun _ => true,
    gen := fun _ => "" }

/-- **C4** counterexample to the claim as stated: after the validation
failure the final history is empty — zero system messages, not the claimed
exactly-one reset notice — while the loop returns the fixed apology after a
single provider call. -/
theorem executeAgentLoop_validation_no_system_message :
    (executeAgentLoop envValidationFail [] "hi").history = [] ∧
    ((executeAgentLoop envValidationFail [] "hi").history.filter
      (fun m => m.role == Role.system)).length = 0 ∧
    (executeAgentLoop envValidationFail [] "hi").finalResponse =
      apologyReset ∧
    (executeAgentLoop envValidationFail [] "hi").providerCalls = 1 := by
  refine ⟨by decide, by decide, by decide, by decide⟩

/-- Witness for the validation-reset theorem at a concrete state. -/
theorem executeAgentLoop_validation_error_reset_witness :
    (loopStep envValidationFail { history := [userMsg "hi"] }).history = [] :=
  (executeAgentLoop_validation_error_reset envValidationFail
    { history := [userMsg "hi"] }
    "400 Invalid parameter: invalid_request_error at messages.1"
    rfl (by decide)).1

/-- Did the dispatch of this call succeed (no exception captured)? -/
def dispatchSuccess (ex : ToolCall → ExecOutcome) (c : ToolCall) : Bool :=
  match ex c with
  | ExecOutcome.ok _ => true
  | ExecOutcome.err _ => false

/-- Processing a single call with no breaking names dispatches it and
returns its one result. -/
theorem processToolCalls_single (ex : ToolCall → ExecOutcome) (c : ToolCall) :
    processToolCalls ex [c] [] =
      (false, [⟨c.id, dispatchText ex c, dispatchSuccess ex c⟩]) := by
  unfold processToolCalls dispatchText dispatchSuccess
  cases hex : ex c <;> simp [hex]

/-- **C3** (amended).  When the assistant response's tool calls contain a
call named `done`, the loop processes only that call (the first such):
every sibling call is discarded undispatched, the loop terminates at once,
and the final answer is the `done` call's output when that output is
non-empty — an empty output falls back to the generated response. -/
theorem loopStep_done_short_circuit (env : LoopEnv) (st : LoopState)
    (resp : AssistantResponse) (calls : List ToolCall) (dc : ToolCall)
    (hok : env.provider (st.iterations + 1) = ProviderOutcome.ok resp)
    (hcalls : resp.tool_calls = some calls)
    (hfind : calls.find? (fun c => c.function.name == "done") = some dc) :
    (loopStep env st).loopComplete = true ∧
    (loopStep env st).executed = st.executed ++ [dc] ∧
    dc.function.name = "done" ∧
    (loopStep env st).finalResponse =
      (if dispatchText env.exec dc ≠ "" then dispatchText env.exec dc
       else env.gen resp) ∧
    ∀ fuel, loopRun env fuel (loopStep env st) = loopStep env st := by
  have hname : dc.function.name = "done" := by
    have := List.find?_some hfind
    exact eq_of_beq this
  have hne : calls ≠ [] := by
    intro hnil
    rw [hnil, List.find?_nil] at hfind
    exact Option.noConfusion hfind
  have hlen : ¬ calls.length = 0 := fun h0 => hne (List.length_eq_zero.mp h0)
  have hcore : ∀ mid : LoopState, loopStepCore env mid (st.iterations + 1) =
      doneBranch env { mid with history :=
        addToConversationHistory mid.history (assistantMessageOf resp) }
        resp dc := by
    intro mid
    unfold loopStepCore
    rw [hok]
    simp only [handleProviderOutcome, hcalls]
    rw [if_neg hlen, hfind]
  have hdone : ∀ st1 : LoopState, doneBranch env st1 resp dc =
      { st1 with
        history := addAllToConversationHistory st1.history
          [toolMsg dc.id (dispatchText env.exec dc)],
        executed := st1.executed ++ [dc],
        finalResponse := if dispatchText env.exec dc ≠ "" then
          dispatchText env.exec dc else env.gen resp,
        loopComplete := true } := by
    intro st1
    simp only [doneBranch, processToolCalls_single]
    rfl
  have hrec : loopStep env st =
      { st with
        history := addAllToConversationHistory
          (addToConversationHistory
            (if shouldSummarizeHistory st.history maxPayloadSize
                maxMessagesBeforeSummary = true ∧ 2 < st.history.length then
              addAllToConversationHistory [] st.history
            else st.history)
            (assistantMessageOf resp))
          [toolMsg dc.id (dispatchText env.exec dc)],
        executed := st.executed ++ [dc],
        iterations := st.iterations + 1,
        providerCalls := st.providerCalls + 1,
        finalResponse := if dispatchText env.exec dc ≠ "" then
          dispatchText env.exec dc else env.gen resp,
        loopComplete := true } := by
    simp only [loopStep]
    rw [hcore, hdone]
  refine ⟨by rw [hrec], by rw [hrec], hname, by rw [hrec],
    fun fuel => loopRun_stop env fuel _ (Or.inl (by rw [hrec]))⟩

/-- The `done` call of the counterexample environment. -/
def doneCallEx : ToolCall := ⟨"d1", ⟨"done", "\x7b\x7d"⟩⟩

/-- A sibling call sent alongside `done` in the same batch. -/
def siblingCallEx : ToolCall := ⟨"d2", ⟨"read_file", "\x7b\x7d"⟩⟩

/-- A response carrying a `done` call plus a sibling call. -/
def respDone : AssistantResponse :=
  { content := none, tool_calls := some [doneCallEx, siblingCallEx] }

/-- Environment where the `done` tool returns an empty output. -/
def envDoneEmpty : LoopEnv :=
  { provider := fun _ => ProviderOutcome.ok respDone,
    exec := fun _ => ExecOutcome.ok "",
    approve := fun _ => true,
    gen := fun _ => "FALLBACK RESPONSE" }

/-- **C3** counterexample to the claim as stated: the `done` tool's output
is the empty string, yet the loop's final answer is the generated fallback,
not that output. -/
theorem loopStep_done_empty_output_fallback :
    envDoneEmpty.exec doneCallEx = ExecOutcome.ok "" ∧
    (loopStep envDoneEmpty { history := [userMsg "q"] }).finalResponse =
      "FALLBACK RESPONSE" ∧
    (loopStep envDoneEmpty { history := [userMsg "q"] }).loopComplete =
      true := by
  refine ⟨rfl, by decide, by decide⟩

/-- Environment where the `done` tool returns a summary text. -/
def envDoneOk : LoopEnv :=
  { provider := fun _ => ProviderOutcome.ok respDone,
    exec := fun _ => ExecOutcome.ok "All done: summary of the work",
    approve := fun _ => true,
    gen := fun _ => "FALLBACK RESPONSE" }

/-- Witness: with a `done` call in the batch, only that call is dispatched
and the loop completes. -/
theorem loopStep_done_short_circuit_witness :
    (loopStep envDoneOk { history := [userMsg "q"] }).executed =
      [] ++ [doneCallEx] :=
  (loopStep_done_short_circuit envDoneOk { history := [userMsg "q"] }
    respDone [doneCallEx, siblingCallEx] doneCallEx rfl rfl (by decide)).2.1

/-! ## AgentLoopService streaming: tool-call chunk accumulation (C9)

`processToolCallChunk` merges streamed tool-call delta fragments into the
assistant-message buffer, keyed by the stream-provided `index`: an existing
entry gets its `name` and `arguments` extended by the fragment's (truthy)
pieces; a missing entry is created with the fragment's id — or a
synthesized `call_<buffer length>` when the id is absent or empty — and
then extended.  `executeStreamingAgentLoop` dispatches the buffer only when
`hasCompletedToolCalls` holds: a non-empty buffer in which every entry has
a truthy (non-empty) name and a truthy (non-empty) argument string. -/

/-- One accumulated tool call of the streaming buffer. -/
structure BufferedCall where
  id : String
  name : String
  arguments : String
  index : Nat
deriving DecidableEq, Repr

/-- The `function` part of a streamed fragment. -/
structure ChunkFunction where
  name : Option String := none
  arguments : Option String := none
deriving DecidableEq, Repr

/-- One streamed tool-call delta fragment. -/
structure ToolCallChunk where
  index : Nat
  id : Option String := none
  function : Option ChunkFunction := none
deriving DecidableEq, Repr

/-- Append a fragment's truthy name piece. -/
def applyChunkName (tc : BufferedCall) (f : ChunkFunction) : BufferedCall :=
  match f.name with
  | some s => if s ≠ "" then { tc with name := tc.name ++ s } else tc
  | none => tc

/-- Append a fragment's truthy argument piece. -/
def applyChunkArgs (tc : BufferedCall) (f : ChunkFunction) : BufferedCall :=
  match f.arguments with
  | some s => if s ≠ "" then { tc with arguments := tc.arguments ++ s } else tc
  | none => tc

/-- Merge one fragment into an entry. -/
def applyChunk (tc : BufferedCall) (c : ToolCallChunk) : BufferedCall :=
  match c.function with
  | none => tc
  | some f => applyChunkArgs (applyChunkName tc f) f

/-- The entry created for a fragment's index: id from the fragment when
truthy, else `call_<buffer length>`. -/
def freshBuffered (len : Nat) (c : ToolCallChunk) : BufferedCall :=
  { id := match c.id with
      | some s => if s ≠ "" then s else "call_" ++ toString len
      | none => "call_" ++ toString len,
    name := "", arguments := "", index := c.index }

/-- Replace the first entry with the fragment's index (`find?`-and-mutate
of the source). -/
def updateFirstBuffered : List BufferedCall → ToolCallChunk →
    List BufferedCall
  | [], _ => []
  | tc :: rest, c =>
    if tc.index == c.index then applyChunk tc c :: rest
    else tc :: updateFirstBuffered rest c

/-- Merge one fragment into the buffer. -/
def processOneChunk (b : List BufferedCall) (c : ToolCallChunk) :
    List BufferedCall :=
  if b.any (fun tc => tc.index == c.index) then updateFirstBuffered b c
  else b ++ [applyChunk (freshBuffered b.length c) c]

/-- `AgentLoopService.processToolCallChunk`: merge one delta's fragments. -/
def processToolCallChunk (b : List BufferedCall)
    (cs : List ToolCallChunk) : List BufferedCall :=
  cs.foldl processOneChunk b

/-- The buffer after a whole stream of fragments. -/
def streamMergeChunks (fs : List ToolCallChunk) : List BufferedCall :=
  fs.foldl processOneChunk []

/-- The dispatch gate of `executeStreamingAgentLoop`: non-empty buffer,
every entry with truthy name and truthy argument string. -/
def hasCompletedToolCalls (b : List BufferedCall) : Bool :=
  decide (0 < b.length) &&
    b.all (fun tc => !(tc.name == "") && !(tc.arguments == ""))

/-- The name piece a fragment carries. -/
def pieceOfName (c : ToolCallChunk) : Option String :=
  c.function.bind (·.name)

/-- The argument piece a fragment carries. -/
def pieceOfArgs (c : ToolCallChunk) : Option String :=
  c.function.bind (·.arguments)

/-- Concatenation of a list of strings, in order. -/
def joinStrings : List String → String
  | [] => ""
  | s :: rest => s ++ joinStrings rest

/-- The arrival-order concatenation of all name pieces carrying index `i`. -/
def joinNamePieces (i : Nat) (fs : List ToolCallChunk) : String :=
  joinStrings ((fs.filter (fun c => c.index == i)).filterMap pieceOfName)

/-- The arrival-order concatenation of all argument pieces at index `i`. -/
def joinArgPieces (i : Nat) (fs : List ToolCallChunk) : String :=
  joinStrings ((fs.filter (fun c => c.index == i)).filterMap pieceOfArgs)

/-- A fragment's id when truthy (present and non-empty). -/
def truthyId (c : ToolCallChunk) : Option String :=
  match c.id with
  | some s => if s = "" then none else some s
  | none => none

/-- The id clause of the claim: a buffered entry takes its id from the
first fragment carrying its index — that fragment's id when truthy,
otherwise a synthesized `call_<k>`. -/
def idSpec (fs : List ToolCallChunk) (tc : BufferedCall) : Prop :=
  ∃ c0, fs.find? (fun c => c.index == tc.index) = some c0 ∧
    ((∃ s, truthyId c0 = some s ∧ tc.id = s) ∨
     (truthyId c0 = none ∧ ∃ k : Nat, tc.id = "call_" ++ toString k))

/-- A minimal syntactic-completeness test for a JSON argument payload:
non-empty with balanced braces (any formalization of `syntactically
complete` must reject an unclosed opening brace). -/
def bracesBalancedFrom : Nat → List Char → Bool
  | depth, [] => depth == 0
  | depth, ch :: rest =>
    if ch = Char.ofNat 123 then bracesBalancedFrom (depth + 1) rest
    else if ch = Char.ofNat 125 then
      match depth with
      | 0 => false
      | d + 1 => bracesBalancedFrom d rest
    else bracesBalancedFrom depth rest

/-- Complete JSON payload proxy: non-empty and brace-balanced. -/
def completeJsonPayload (s : String) : Bool :=
  !(s == "") && bracesBalancedFrom 0 s.data

section StreamingLemmas

/-- Appending the empty string is the identity. -/
theorem string_append_empty (s : String) : s ++ "" = s := by
  cases s with
  | mk data =>
    show String.mk (data ++ []) = String.mk data
    rw [List.append_nil]

/-- Prepending the empty string is the identity. -/
theorem string_empty_append (s : String) : "" ++ s = s := by
  cases s with
  | mk data =>
    show String.mk ([] ++ data) = String.mk data
    rw [List.nil_append]

/-- String concatenation is associative. -/
theorem string_append_assoc (a b c : String) :
    a ++ b ++ c = a ++ (b ++ c) := by
  cases a with
  | mk da =>
    cases b with
    | mk db =>
      cases c with
      | mk dc =>
        show String.mk (da ++ db ++ dc) = String.mk (da ++ (db ++ dc))
        rw [List.append_assoc]

/-- `joinStrings` on a cons. -/
theorem joinStrings_cons (x : String) (l : List String) :
    joinStrings (x :: l) = x ++ joinStrings l := rfl

/-- `joinStrings` distributes over append. -/
theorem joinStrings_append (l1 l2 : List String) :
    joinStrings (l1 ++ l2) = joinStrings l1 ++ joinStrings l2 := by
  induction l1 with
  | nil => rw [List.nil_append]; exact (string_empty_append _).symm
  | cons s l1 ih =>
    rw [List.cons_append, joinStrings_cons, joinStrings_cons, ih,
      string_append_assoc]

/-- Push a function through an `if`. -/
theorem ite_map {α β : Type} {P : Prop} [Decidable P] (g : α → β)
    (a b : α) : g (if P then a else b) = if P then g a else g b := by
  by_cases h : P
  · rw [if_pos h, if_pos h]
  · rw [if_neg h, if_neg h]

/-- Appending a string guarded by its own non-emptiness is plain append. -/
theorem ite_append_str (t s : String) :
    (if s ≠ "" then t ++ s else t) = t ++ s := by
  by_cases h : s ≠ ""
  · rw [if_pos h]
  · rw [if_neg h]
    have hs : s = "" := not_not.mp h
    rw [hs]
    exact (string_append_empty t).symm

/-- Field effects of `applyChunkName`. -/
theorem applyChunkName_index (tc : BufferedCall) (f : ChunkFunction) :
    (applyChunkName tc f).index = tc.index := by
  unfold applyChunkName
  cases f.name with
  | none => rfl
  | some s =>
    exact (ite_map (P := s ≠ "") (fun x : BufferedCall => x.index)
      { tc with name := tc.name ++ s } tc).trans (ite_self _)

theorem applyChunkName_id (tc : BufferedCall) (f : ChunkFunction) :
    (applyChunkName tc f).id = tc.id := by
  unfold applyChunkName
  cases f.name with
  | none => rfl
  | some s =>
    exact (ite_map (P := s ≠ "") (fun x : BufferedCall => x.id)
      { tc with name := tc.name ++ s } tc).trans (ite_self _)

theorem applyChunkName_args (tc : BufferedCall) (f : ChunkFunction) :
    (applyChunkName tc f).arguments = tc.arguments := by
  unfold applyChunkName
  cases f.name with
  | none => rfl
  | some s =>
    exact (ite_map (P := s ≠ "") (fun x : BufferedCall => x.arguments)
      { tc with name := tc.name ++ s } tc).trans (ite_self _)

theorem applyChunkName_name (tc : BufferedCall) (f : ChunkFunction) :
    (applyChunkName tc f).name = tc.name ++ (f.name.getD "") := by
  unfold applyChunkName
  cases f.name with
  | none => exact (string_append_empty _).symm
  | some s =>
    exact (ite_map (P := s ≠ "") (fun x : BufferedCall => x.name)
      { tc with name := tc.name ++ s } tc).trans (ite_append_str tc.name s)

/-- Field effects of `applyChunkArgs`. -/
theorem applyChunkArgs_index (tc : BufferedCall) (f : ChunkFunction) :
    (applyChunkArgs tc f).index = tc.index := by
  unfold applyChunkArgs
  cases f.arguments with
  | none => rfl
  | some s =>
    exact (ite_map (P := s ≠ "") (fun x : BufferedCall => x.index)
      { tc with arguments := tc.arguments ++ s } tc).trans (ite_self _)

theorem applyChunkArgs_id (tc : BufferedCall) (f : ChunkFunction) :
    (applyChunkArgs tc f).id = tc.id := by
  unfold applyChunkArgs
  cases f.arguments with
  | none => rfl
  | some s =>
    exact (ite_map (P := s ≠ "") (fun x : BufferedCall => x.id)
      { tc with arguments := tc.arguments ++ s } tc).trans (ite_self _)

theorem applyChunkArgs_name (tc : BufferedCall) (f : ChunkFunction) :
    (applyChunkArgs tc f).name = tc.name := by
  unfold applyChunkArgs
  cases f.arguments with
  | none => rfl
  | some s =>
    exact (ite_map (P := s ≠ "") (fun x : BufferedCall => x.name)
      { tc with arguments := tc.arguments ++ s } tc).trans (ite_self _)

theorem applyChunkArgs_args (tc : BufferedCall) (f : ChunkFunction) :
    (applyChunkArgs tc f).arguments =
      tc.arguments ++ (f.arguments.getD "") := by
  unfold applyChunkArgs
  cases f.arguments with
  | none => exact (string_append_empty _).symm
  | some s =>
    exact (ite_map (P := s ≠ "") (fun x : BufferedCall => x.arguments)
      { tc with arguments := tc.arguments ++ s } tc).trans
      (ite_append_str tc.arguments s)

/-- Merging a fragment does not change an entry's index. -/
theorem applyChunk_index (tc : BufferedCall) (c : ToolCallChunk) :
    (applyChunk tc c).index = tc.index := by
  unfold applyChunk
  cases hf : c.function with
  | none => rfl
  | some f => rw [applyChunkArgs_index, applyChunkName_index]

/-- Merging a fragment does not change an entry's id. -/
theorem applyChunk_id (tc : BufferedCall) (c : ToolCallChunk) :
    (applyChunk tc c).id = tc.id := by
  unfold applyChunk
  cases hf : c.function with
  | none => rfl
  | some f => rw [applyChunkArgs_id, applyChunkName_id]

/-- Merging a fragment appends its name piece. -/
theorem applyChunk_name (tc : BufferedCall) (c : ToolCallChunk) :
    (applyChunk tc c).name = tc.name ++ (pieceOfName c).getD "" := by
  unfold applyChunk
  cases hf : c.function with
  | none =>
    have hp : pieceOfName c = none := by unfold pieceOfName; rw [hf]; rfl
    rw [hp, Option.getD_none]
    exact (string_append_empty _).symm
  | some f =>
    have hp : pieceOfName c = f.name := by unfold pieceOfName; rw [hf]; rfl
    rw [applyChunkArgs_name, applyChunkName_name, hp]

/-- Merging a fragment appends its argument piece. -/
theorem applyChunk_args (tc : BufferedCall) (c : ToolCallChunk) :
    (applyChunk tc c).arguments = tc.arguments ++ (pieceOfArgs c).getD "" := by
  unfold applyChunk
  cases hf : c.function with
  | none =>
    have hp : pieceOfArgs c = none := by unfold pieceOfArgs; rw [hf]; rfl
    rw [hp, Option.getD_none]
    exact (string_append_empty _).symm
  | some f =>
    have hp : pieceOfArgs c = f.arguments := by unfold pieceOfArgs; rw [hf]; rfl
    rw [applyChunkArgs_args, applyChunkName_args, hp]

/-- With pairwise-distinct indices, replacing the first matching entry is
the pointwise conditional merge. -/
theorem updateFirstBuffered_map (c : ToolCallChunk) :
    ∀ b : List BufferedCall, ((b.map (·.index)).Nodup) →
      updateFirstBuffered b c =
        b.map (fun tc => if tc.index == c.index then applyChunk tc c
          else tc) := by
  intro b
  induction b with
  | nil => intro _; rfl
  | cons tc rest ih =>
    intro hnodup
    have hhead : tc.index ∉ rest.map (·.index) :=
      (List.nodup_cons.mp hnodup).1
    have htail : (rest.map (·.index)).Nodup := (List.nodup_cons.mp hnodup).2
    unfold updateFirstBuffered
    by_cases h : (tc.index == c.index) = true
    · rw [if_pos h, List.map_cons, if_pos h]
      have hrest : ∀ tc' ∈ rest, (tc'.index == c.index) = false := by
        intro tc' htc'
        rw [beq_eq_false_iff_ne]
        intro he
        have : tc.index = c.index := eq_of_beq h
        exact hhead (this ▸ he ▸ List.mem_map_of_mem (·.index) htc')
      rw [map_ite_id rest _ _ hrest]
    · rw [if_neg h, List.map_cons, if_neg h, ih htail]

/-- The conditional merge preserves the index column. -/
theorem map_ite_applyChunk_index (c : ToolCallChunk) (b : List BufferedCall) :
    ((b.map (fun tc => if tc.index == c.index then applyChunk tc c
      else tc)).map (·.index)) = b.map (·.index) := by
  rw [List.map_map]
  apply List.map_congr_left
  intro tc _
  simp only [Function.comp_apply]
  by_cases h : (tc.index == c.index) = true
  · rw [if_pos h, applyChunk_index]
  · rw [if_neg h]

/-- A piece-concatenation over `fs ++ [c]` appends `c`'s piece exactly at
`c`'s index. -/
theorem join_filterMap_append (piece : ToolCallChunk → Option String)
    (i : Nat) (fs : List ToolCallChunk) (c : ToolCallChunk) :
    joinStrings (((fs ++ [c]).filter (fun x => x.index == i)).filterMap
      piece) =
    joinStrings ((fs.filter (fun x => x.index == i)).filterMap piece) ++
      (if (c.index == i) = true then (piece c).getD "" else "") := by
  rw [List.filter_append, List.filterMap_append, joinStrings_append]
  congr 1
  by_cases h : (c.index == i) = true
  · rw [if_pos h]
    have hfil : List.filter (fun x => x.index == i) [c] = [c] := by
      rw [List.filter_cons, if_pos h]
      rfl
    rw [hfil]
    cases hp : piece c with
    | none =>
      rw [List.filterMap_cons, hp]
      rfl
    | some s =>
      rw [List.filterMap_cons, hp]
      show s ++ "" = s
      exact string_append_empty s
  · rw [if_neg h]
    have hfil : List.filter (fun x => x.index == i) [c] = [] := by
      rw [List.filter_cons, if_neg h]
      rfl
    rw [hfil]
    rfl

/-- A piece-concatenation over fragments that never carry index `i` is
empty. -/
theorem join_filterMap_absent (piece : ToolCallChunk → Option String)
    (i : Nat) (fs : List ToolCallChunk)
    (h : ∀ c ∈ fs, (c.index == i) = false) :
    joinStrings ((fs.filter (fun x => x.index == i)).filterMap piece) = "" := by
  have hfil : fs.filter (fun x => x.index == i) = [] := by
    rw [List.filter_eq_nil]
    intro a ha
    exact bool_not_true (h a ha)
  rw [hfil]
  rfl

/-- `find?` over an append when the front already answers. -/
theorem find?_append_of_some {α : Type} {p : α → Bool} {l1 : List α}
    {c0 : α} (h : l1.find? p = some c0) (l2 : List α) :
    (l1 ++ l2).find? p = some c0 := by
  induction l1 with
  | nil => rw [List.find?_nil] at h; exact Option.noConfusion h
  | cons a l ih =>
    rw [List.cons_append]
    cases hpa : p a with
    | true =>
      rw [List.find?_cons_of_pos _ hpa] at h
      rw [List.find?_cons_of_pos _ hpa]
      exact h
    | false =>
      rw [List.find?_cons_of_neg _ (bool_not_true hpa)] at h
      rw [List.find?_cons_of_neg _ (bool_not_true hpa)]
      exact ih h

/-- `find?` over an append when the front has no match. -/
theorem find?_append_none {α : Type} {p : α → Bool} {l1 : List α}
    (h : l1.find? p = none) (l2 : List α) :
    (l1 ++ l2).find? p = l2.find? p := by
  induction l1 with
  | nil => rw [List.nil_append]
  | cons a l ih =>
    rw [List.cons_append]
    cases hpa : p a with
    | true =>
      rw [List.find?_cons_of_pos _ hpa] at h
      exact Option.noConfusion h
    | false =>
      rw [List.find?_cons_of_neg _ (bool_not_true hpa)] at h
      rw [List.find?_cons_of_neg _ (bool_not_true hpa)]
      exact ih h

/-- The stream-buffer characterization: distinct indices, index set equal
to the fragments' index set, and per entry the concatenated name,
concatenated arguments and first-fragment id. -/
theorem streamMergeChunks_spec (fs : List ToolCallChunk) :
    ((streamMergeChunks fs).map (·.index)).Nodup ∧
    (∀ i : Nat, (∃ tc ∈ streamMergeChunks fs, tc.index = i) ↔
      (∃ c ∈ fs, c.index = i)) ∧
    (∀ tc ∈ streamMergeChunks fs,
      tc.name = joinNamePieces tc.index fs ∧
      tc.arguments = joinArgPieces tc.index fs ∧
      idSpec fs tc) := by
  induction fs using List.reverseRecOn with
  | nil =>
    refine ⟨List.nodup_nil, ?_, ?_⟩
    · intro i
      constructor
      · rintro ⟨tc, htc, _⟩
        exact absurd htc (List.not_mem_nil tc)
      · rintro ⟨c, hc, _⟩
        exact absurd hc (List.not_mem_nil c)
    · intro tc htc
      exact absurd htc (List.not_mem_nil tc)
  | append_singleton fs c ih =>
    obtain ⟨hnodup, hmem, hfields⟩ := ih
    have hstep : streamMergeChunks (fs ++ [c]) =
        processOneChunk (streamMergeChunks fs) c := by
      unfold streamMergeChunks
      rw [List.foldl_append]
      rfl
    by_cases hfound :
        ((streamMergeChunks fs).any (fun tc => tc.index == c.index)) = true
    · have hproc : streamMergeChunks (fs ++ [c]) =
          (streamMergeChunks fs).map
            (fun tc => if tc.index == c.index then applyChunk tc c
              else tc) := by
        rw [hstep]
        unfold processOneChunk
        rw [if_pos hfound]
        exact updateFirstBuffered_map c _ hnodup
      refine ⟨?_, ?_, ?_⟩
      · rw [hproc, map_ite_applyChunk_index]
        exact hnodup
      · intro i
        rw [hproc]
        constructor
        · rintro ⟨tc', htc', hidx⟩
          obtain ⟨tc0, htc0, heq⟩ := List.mem_map.mp htc'
          subst heq
          have hidx0 : tc0.index = i := by
            by_cases h : (tc0.index == c.index) = true
            · rw [if_pos h, applyChunk_index] at hidx
              exact hidx
            · rw [if_neg h] at hidx
              exact hidx
          obtain ⟨c', hc', hi⟩ := (hmem i).mp ⟨tc0, htc0, hidx0⟩
          exact ⟨c', List.mem_append_left _ hc', hi⟩
        · rintro ⟨c', hc', hidx⟩
          have hexfs : ∃ c'' ∈ fs, c''.index = i := by
            rcases List.mem_append.mp hc' with hin | hsing
            · exact ⟨c', hin, hidx⟩
            · have hcc : c' = c := List.mem_singleton.mp hsing
              rw [List.any_eq_true] at hfound
              obtain ⟨tc0, htc0, hb⟩ := hfound
              obtain ⟨c'', hc'', hi''⟩ :=
                (hmem c.index).mp ⟨tc0, htc0, eq_of_beq hb⟩
              refine ⟨c'', hc'', hi''.trans ?_⟩
              rw [← hcc]
              exact hidx
          obtain ⟨tc0, htc0, hi0⟩ := (hmem i).mpr hexfs
          refine ⟨if tc0.index == c.index then applyChunk tc0 c else tc0,
            List.mem_map_of_mem _ htc0, ?_⟩
          by_cases h : (tc0.index == c.index) = true
          · rw [if_pos h, applyChunk_index]
            exact hi0
          · rw [if_neg h]
            exact hi0
      · intro tc' htc'
        rw [hproc] at htc'
        obtain ⟨tc0, htc0, heq⟩ := List.mem_map.mp htc'
        obtain ⟨hname0, hargs0, hid0⟩ := hfields tc0 htc0
        subst heq
        by_cases h : (tc0.index == c.index) = true
        · have hci : c.index = tc0.index := (eq_of_beq h).symm
          simp only [if_pos h]
          refine ⟨?_, ?_, ?_⟩
          · rw [applyChunk_index, applyChunk_name, hname0]
            unfold joinNamePieces
            rw [join_filterMap_append, hci, if_pos (beq_self_eq_true _)]
          · rw [applyChunk_index, applyChunk_args, hargs0]
            unfold joinArgPieces
            rw [join_filterMap_append, hci, if_pos (beq_self_eq_true _)]
          · obtain ⟨c0, hfind, hbranch⟩ := hid0
            unfold idSpec
            rw [applyChunk_index, applyChunk_id]
            exact ⟨c0, find?_append_of_some hfind [c], hbranch⟩
        · have hci : (c.index == tc0.index) = false := by
            rw [beq_eq_false_iff_ne]
            intro he
            have h2 := eq_false_of_ne_true h
            rw [beq_eq_false_iff_ne] at h2
            exact h2 he.symm
          simp only [if_neg h]
          refine ⟨?_, ?_, ?_⟩
          · rw [hname0]
            unfold joinNamePieces
            rw [join_filterMap_append, hci]
            simp only [Bool.false_eq_true, if_false]
            exact (string_append_empty _).symm
          · rw [hargs0]
            unfold joinArgPieces
            rw [join_filterMap_append, hci]
            simp only [Bool.false_eq_true, if_false]
            exact (string_append_empty _).symm
          · obtain ⟨c0, hfind, hbranch⟩ := hid0
            exact ⟨c0, find?_append_of_some hfind [c], hbranch⟩
    · have hnofs : ∀ tc0 ∈ streamMergeChunks fs,
          (tc0.index == c.index) = false := by
        intro tc0 htc0
        exact eq_false_of_ne_true fun hq =>
          hfound (List.any_eq_true.mpr ⟨tc0, htc0, hq⟩)
      have habs : ∀ c' ∈ fs, (c'.index == c.index) = false := by
        intro c' hc'
        rw [beq_eq_false_iff_ne]
        intro he
        obtain ⟨tc0, htc0, hi0⟩ := (hmem c.index).mpr ⟨c', hc', he⟩
        have := hnofs tc0 htc0
        rw [beq_eq_false_iff_ne] at this
        exact this hi0
      have hproc : streamMergeChunks (fs ++ [c]) =
          streamMergeChunks fs ++
            [applyChunk (freshBuffered (streamMergeChunks fs).length c) c] := by
        rw [hstep]
        unfold processOneChunk
        rw [if_neg hfound]
      have hnewidx :
          (applyChunk (freshBuffered (streamMergeChunks fs).length c) c).index =
            c.index := by
        rw [applyChunk_index]
        rfl
      refine ⟨?_, ?_, ?_⟩
      · rw [hproc, List.map_append]
        rw [List.nodup_append]
        refine ⟨hnodup, List.nodup_singleton _, ?_⟩
        intro a ha hb
        obtain ⟨tc0, htc0, heq⟩ := List.mem_map.mp ha
        have hbc : a = c.index := by
          have := List.mem_map.mp hb
          obtain ⟨x, hx, hxe⟩ := this
          have : x = applyChunk (freshBuffered (streamMergeChunks fs).length c) c :=
            List.mem_singleton.mp hx
          rw [this, hnewidx] at hxe
          exact hxe.symm
        have := hnofs tc0 htc0
        rw [beq_eq_false_iff_ne] at this
        exact this (heq.trans hbc)
      · intro i
        rw [hproc]
        constructor
        · rintro ⟨tc', htc', hidx⟩
          rcases List.mem_append.mp htc' with hin | hsing
          · obtain ⟨c', hc', hi⟩ := (hmem i).mp ⟨tc', hin, hidx⟩
            exact ⟨c', List.mem_append_left _ hc', hi⟩
          · have : tc' = applyChunk (freshBuffered
                (streamMergeChunks fs).length c) c :=
              List.mem_singleton.mp hsing
            rw [this, hnewidx] at hidx
            exact ⟨c, List.mem_append_right _ (List.mem_singleton.mpr rfl),
              hidx⟩
        · rintro ⟨c', hc', hidx⟩
          rcases List.mem_append.mp hc' with hin | hsing
          · obtain ⟨tc0, htc0, hi0⟩ := (hmem i).mpr ⟨c', hin, hidx⟩
            exact ⟨tc0, List.mem_append_left _ htc0, hi0⟩
          · have hcc : c' = c := List.mem_singleton.mp hsing
            rw [hcc] at hidx
            exact ⟨applyChunk (freshBuffered (streamMergeChunks fs).length c) c,
              List.mem_append_right _ (List.mem_singleton.mpr rfl),
              hnewidx.trans hidx⟩
      · intro tc' htc'
        rw [hproc] at htc'
        rcases List.mem_append.mp htc' with hin | hsing
        · obtain ⟨hname0, hargs0, hid0⟩ := hfields tc' hin
          have hci : (c.index == tc'.index) = false := by
            rw [beq_eq_false_iff_ne]
            intro he
            have := hnofs tc' hin
            rw [beq_eq_false_iff_ne] at this
            exact this he.symm
          refine ⟨?_, ?_, ?_⟩
          · rw [hname0]
            unfold joinNamePieces
            rw [join_filterMap_append, hci]
            simp only [Bool.false_eq_true, if_false]
            exact (string_append_empty _).symm
          · rw [hargs0]
            unfold joinArgPieces
            rw [join_filterMap_append, hci]
            simp only [Bool.false_eq_true, if_false]
            exact (string_append_empty _).symm
          · obtain ⟨c0, hfind, hbranch⟩ := hid0
            exact ⟨c0, find?_append_of_some hfind [c], hbranch⟩
        · have hne : tc' = applyChunk (freshBuffered
              (streamMergeChunks fs).length c) c :=
            List.mem_singleton.mp hsing
          subst hne
          have hfnone : (streamMergeChunks fs).length =
              (streamMergeChunks fs).length := rfl
          have hfindnone : fs.find? (fun x => x.index == c.index) = none := by
            rw [List.find?_eq_none]
            intro x hx
            exact bool_not_true (habs x hx)
          have hfindc : (fs ++ [c]).find? (fun x => x.index == c.index) =
              some c := by
            rw [find?_append_none hfindnone]
            exact List.find?_cons_of_pos _ (beq_self_eq_true _)
          refine ⟨?_, ?_, ?_⟩
          · rw [hnewidx, applyChunk_name]
            have hfreshname : (freshBuffered
                (streamMergeChunks fs).length c).name = "" := rfl
            rw [hfreshname, string_empty_append]
            unfold joinNamePieces
            rw [join_filterMap_append pieceOfName c.index fs c,
              join_filterMap_absent pieceOfName c.index fs habs,
              if_pos (beq_self_eq_true _), string_empty_append]
          · rw [hnewidx, applyChunk_args]
            have hfreshargs : (freshBuffered
                (streamMergeChunks fs).length c).arguments = "" := rfl
            rw [hfreshargs, string_empty_append]
            unfold joinArgPieces
            rw [join_filterMap_append pieceOfArgs c.index fs c,
              join_filterMap_absent pieceOfArgs c.index fs habs,
              if_pos (beq_self_eq_true _), string_empty_append]
          · unfold idSpec
            rw [hnewidx, applyChunk_id]
            refine ⟨c, hfindc, ?_⟩
            cases hid : c.id with
            | none =>
              refine Or.inr ⟨?_, ⟨(streamMergeChunks fs).length, ?_⟩⟩
              · unfold truthyId
                rw [hid]
              · show (freshBuffered (streamMergeChunks fs).length c).id = _
                unfold freshBuffered
                rw [hid]
            | some s =>
              by_cases hs : s = ""
              · refine Or.inr ⟨?_, ⟨(streamMergeChunks fs).length, ?_⟩⟩
                · unfold truthyId
                  rw [hid]
                  show (if s = "" then (none : Option String) else some s) =
                    none
                  rw [if_pos hs]
                · show (freshBuffered (streamMergeChunks fs).length c).id = _
                  unfold freshBuffered
                  rw [hid]
                  show (if s ≠ "" then s
                      else "call_" ++ toString (streamMergeChunks fs).length) =
                    "call_" ++ toString (streamMergeChunks fs).length
                  rw [if_neg (fun hne => hne hs)]
              · refine Or.inl ⟨s, ?_, ?_⟩
                · unfold truthyId
                  rw [hid]
                  show (if s = "" then (none : Option String) else some s) =
                    some s
                  rw [if_neg hs]
                · show (freshBuffered (streamMergeChunks fs).length c).id = s
                  unfold freshBuffered
                  rw [hid]
                  show (if s ≠ "" then s
                      else "call_" ++ toString (streamMergeChunks fs).length) =
                    s
                  rw [if_pos hs]

/-- Batchwise processing of fragments equals processing the concatenated
stream fragment by fragment. -/
theorem foldl_processOneChunk_join (batches : List (List ToolCallChunk)) :
    ∀ b : List BufferedCall,
      List.foldl processToolCallChunk b batches =
        List.foldl processOneChunk b batches.join := by
  induction batches with
  | nil =>
    intro b
    rfl
  | cons cs rest ih =>
    intro b
    show List.foldl processToolCallChunk (processToolCallChunk b cs) rest = _
    rw [ih]
    show _ = List.foldl processOneChunk b (cs ++ rest.join)
    rw [List.foldl_append]
    rfl

/-- The dispatch gate of the streaming loop tests exactly non-emptiness of
the buffer and of every entry name and argument string. -/
theorem hasCompletedToolCalls_iff (b : List BufferedCall) :
    hasCompletedToolCalls b = true ↔
      0 < b.length ∧ ∀ tc ∈ b, tc.name ≠ "" ∧ tc.arguments ≠ "" := by
  unfold hasCompletedToolCalls
  rw [Bool.and_eq_true, decide_eq_true_iff, List.all_eq_true]
  constructor
  · rintro ⟨hlen, hall⟩
    refine ⟨hlen, fun tc htc => ?_⟩
    have h := hall tc htc
    rw [Bool.and_eq_true, Bool.not_eq_true', Bool.not_eq_true',
      beq_eq_false_iff_ne, beq_eq_false_iff_ne] at h
    exact h
  · rintro ⟨hlen, hall⟩
    refine ⟨hlen, fun tc htc => ?_⟩
    have h := hall tc htc
    rw [Bool.and_eq_true, Bool.not_eq_true', Bool.not_eq_true',
      beq_eq_false_iff_ne, beq_eq_false_iff_ne]
    exact h

end StreamingLemmas

/-- C9 (corrected): the streaming loop merges tool-call delta fragments
into the buffer keyed by the stream-provided index — processing the
fragment batches one `processToolCallChunk` call at a time equals merging
the concatenated fragment stream; buffered indices stay pairwise distinct;
an index is buffered exactly when some fragment carried it; each buffered
call's name and arguments are the arrival-order concatenations of all
fragment name and argument pieces carrying its index, and its id comes
from the first fragment of that index (the fragment's id when truthy,
otherwise a synthesized `call_<k>`).  The dispatch gate, however, only
checks that the buffer is non-empty and that every entry's name and
argument string are non-empty; it does not require a syntactically
complete argument payload. -/
theorem processToolCallChunk_stream_accumulation
    (batches : List (List ToolCallChunk)) :
    List.foldl processToolCallChunk [] batches =
      streamMergeChunks batches.join ∧
    ((streamMergeChunks batches.join).map (·.index)).Nodup ∧
    (∀ i : Nat, (∃ tc ∈ streamMergeChunks batches.join, tc.index = i) ↔
      ∃ c ∈ batches.join, c.index = i) ∧
    (∀ tc ∈ streamMergeChunks batches.join,
      tc.name = joinNamePieces tc.index batches.join ∧
      tc.arguments = joinArgPieces tc.index batches.join ∧
      idSpec batches.join tc) ∧
    (∀ b : List BufferedCall, hasCompletedToolCalls b = true ↔
      0 < b.length ∧ ∀ tc ∈ b, tc.name ≠ "" ∧ tc.arguments ≠ "") := by
  obtain ⟨h1, h2, h3⟩ := streamMergeChunks_spec batches.join
  exact ⟨foldl_processOneChunk_join batches [], h1, h2, h3,
    hasCompletedToolCalls_iff⟩

/-- A fragment carrying the name of a call whose argument payload never
arrives complete. -/
def c9Frag1 : ToolCallChunk :=
  { index := 0,
    id := some "call_A",
    function := some { name := some "done", arguments := none } }

/-- A fragment carrying only an unclosed opening brace as argument
piece. -/
def c9Frag2 : ToolCallChunk :=
  { index := 0,
    id := none,
    function := some { name := none, arguments := some "\x7b" } }

/-- C9 counterexample: after merging a name fragment and a lone opening
brace `\x7b` as the whole argument payload, the dispatch gate
`hasCompletedToolCalls` accepts the buffer even though no buffered call
has a syntactically complete (brace-balanced) argument payload — the code
gates only on non-emptiness, contradicting the claimed completeness
condition. -/
theorem hasCompletedToolCalls_accepts_incomplete_payload :
    hasCompletedToolCalls (processToolCallChunk [] [c9Frag1, c9Frag2]) =
      true ∧
    ∀ tc ∈ processToolCallChunk [] [c9Frag1, c9Frag2],
      completeJsonPayload tc.arguments = false := by
  decide

end CodeAgent
